import Mathlib

/-!
Verification of the reversible PII masking engine
(`src/ollqd_worker/processing/pii_masking.py`).

Texts are modelled as `List Char` (Python `str`), Python dicts as
insertion-ordered association lists with duplicate-free keys, and the
streaming unmask buffer as an explicit state machine.  All definitions are
executable (structural recursion, fuel where Python recursion is not
structural) so concrete runs reduce by `decide`/`rfl`.
-/

set_option autoImplicit false

namespace Ollqd

/-- Python `str` is modelled as a list of characters. -/
abbrev Str := List Char

/-- Prefix relation on character lists (own definition, used instead of the
library one so that proofs below are self-contained). -/
def PrefixOf (a b : Str) : Prop := ∃ t, a ++ t = b

/-- Boolean test deciding `PrefixOf pat s` (argument order: pattern, string). -/
def startsWith : Str → Str → Bool
  | [], _ => true
  | _ :: _, [] => false
  | p :: ps, c :: cs => p = c && startsWith ps cs

theorem startsWith_iff : ∀ (pat s : Str), startsWith pat s = true ↔ PrefixOf pat s := by
  intro pat
  induction pat with
  | nil => intro s; simp [startsWith, PrefixOf]
  | cons p ps ih =>
    intro s
    cases s with
    | nil =>
      simp [startsWith, PrefixOf]
    | cons c cs =>
      simp only [startsWith, Bool.and_eq_true, decide_eq_true_eq, ih, PrefixOf]
      constructor
      · rintro ⟨rfl, t, rfl⟩
        exact ⟨t, rfl⟩
      · rintro ⟨t, h⟩
        cases h
        exact ⟨rfl, t, rfl⟩

/-- First-match lookup in an insertion-ordered association list; models
Python `dict` lookup (dict keys are unique, so first match is the match). -/
def lookupA {β : Type} (k : Str) : List (Str × β) → Option β
  | [] => none
  | (k', v) :: rest => if k' = k then some v else lookupA k rest

/-- Python `d[k] = v`: overwrite in place if the key exists (keeping its
position, as CPython dicts do), else append at the end. -/
def dictSet {β : Type} (k : Str) (v : β) : List (Str × β) → List (Str × β)
  | [] => [(k, v)]
  | (k', v') :: rest => if k' = k then (k', v) :: rest else (k', v') :: dictSet k v rest

/-- Python `value.strip()` (whitespace trim on both ends; ASCII whitespace,
which covers every input in this development). -/
def pyStrip (s : Str) : Str :=
  ((s.dropWhile Char.isWhitespace).reverse.dropWhile Char.isWhitespace).reverse

/-- Decimal digit character (`0`..`9`). -/
def digitChar (n : Nat) : Char :=
  if n = 0 then '0' else if n = 1 then '1' else if n = 2 then '2'
  else if n = 3 then '3' else if n = 4 then '4' else if n = 5 then '5'
  else if n = 6 then '6' else if n = 7 then '7' else if n = 8 then '8' else '9'

/-- Fueled decimal rendering of a natural number (fuel keeps the recursion
structural; `natToStr` supplies enough fuel). -/
def natToStrAux : Nat → Nat → Str
  | 0, _ => []
  | fuel + 1, n =>
    if n < 10 then [digitChar n]
    else natToStrAux fuel (n / 10) ++ [digitChar (n % 10)]

/-- Python `str(n)` for a natural number (f-string `{counter}` in the source). -/
def natToStr (n : Nat) : Str := natToStrAux (n + 1) n

/-- Token text `<KIND_N>` built by `get_or_create_token`
(Python `f"<{pii_type}_{counter}>"`). -/
def mkToken (pii_type : Str) (counter : Nat) : Str :=
  '<' :: pii_type ++ '_' :: natToStr counter ++ ['>']

/-- `EntityRegistry.__init__`: the three private dicts, as insertion-ordered
association lists. -/
structure EntityRegistry where
  value_to_token : List (Str × Str)
  token_to_value : List (Str × Str)
  type_counters : List (Str × Nat)
  deriving DecidableEq

/-- A freshly constructed registry (all dicts empty). -/
def emptyRegistry : EntityRegistry := ⟨[], [], []⟩

/-- `EntityRegistry.get_or_create_token`, returning the token together with
the updated registry (the Python method mutates `self`). -/
def get_or_create_token (R : EntityRegistry) (pii_type value : Str) : Str × EntityRegistry :=
  let key := pyStrip value
  match lookupA key R.value_to_token with
  | some t => (t, R)
  | none =>
    let counter := (lookupA pii_type R.type_counters).getD 0 + 1
    let token := mkToken pii_type counter
    (token,
      { value_to_token := dictSet key token R.value_to_token
        token_to_value := dictSet token key R.token_to_value
        type_counters := dictSet pii_type counter R.type_counters })

/-- Fueled body of Python `str.replace(pat, rep)`: scan left to right, replace
each non-overlapping occurrence.  Every step consumes at least one character,
so fuel `s.length` suffices.  (Python's empty-pattern behaviour differs, but
every pattern used here — a `<KIND_N>` token — is nonempty.) -/
def pyReplaceAux (pat rep : Str) : Nat → Str → Str
  | 0, s => s
  | fuel + 1, s =>
    match s with
    | [] => []
    | c :: rest =>
      if pat ≠ [] ∧ startsWith pat (c :: rest) then
        rep ++ pyReplaceAux pat rep fuel ((c :: rest).drop pat.length)
      else
        c :: pyReplaceAux pat rep fuel rest

/-- Python `s.replace(pat, rep)`. -/
def pyReplace (s pat rep : Str) : Str := pyReplaceAux pat rep s.length s

/-- `EntityRegistry.unmask`: fold `result.replace(token, value)` over
`token_to_value.items()` in insertion order. -/
def unmask (R : EntityRegistry) (text : Str) : Str :=
  R.token_to_value.foldl (fun result p => pyReplace result p.1 p.2) text

/-- `EntityRegistry.has_entities`. -/
def has_entities (R : EntityRegistry) : Bool := R.value_to_token.length > 0

/-! ## Stream Unmask Buffer -/

/-- `_BufferState`: the two modes of the streaming state machine. -/
inductive BufferState where
  | normal
  | buffering
  deriving DecidableEq

/-- `StreamUnmaskBuffer`'s mutable state: current mode and pending buffer.
The registry reference is passed explicitly to `feedChar`/`feed`. -/
structure StreamUnmaskBuffer where
  state : BufferState
  buffer : Str
  deriving DecidableEq

/-- `StreamUnmaskBuffer.MAX_TOKEN_LEN`. -/
def MAX_TOKEN_LEN : Nat := 30

/-- `StreamUnmaskBuffer.__init__`: NORMAL mode, empty buffer. -/
def initBuffer : StreamUnmaskBuffer := ⟨BufferState.normal, []⟩

/-- One iteration of the `for char in chunk` loop of `StreamUnmaskBuffer.feed`:
returns the successor state and the characters appended to `parts`. -/
def feedChar (reg : EntityRegistry) (b : StreamUnmaskBuffer) (c : Char) :
    StreamUnmaskBuffer × Str :=
  match b.state with
  | BufferState.normal =>
    if c = '<' then (⟨BufferState.buffering, ['<']⟩, [])
    else (b, [c])
  | BufferState.buffering =>
    let buf := b.buffer ++ [c]
    if c = '>' then
      match lookupA buf reg.token_to_value with
      | some v => (⟨BufferState.normal, []⟩, v)
      | none => (⟨BufferState.normal, []⟩, buf)
    else if MAX_TOKEN_LEN < buf.length then
      (⟨BufferState.normal, []⟩, buf)
    else
      (⟨BufferState.buffering, buf⟩, [])

/-- `StreamUnmaskBuffer.feed` on one chunk: run `feedChar` over every
character, concatenating the emitted parts. -/
def feed (reg : EntityRegistry) (b : StreamUnmaskBuffer) : Str → StreamUnmaskBuffer × Str
  | [] => (b, [])
  | c :: cs =>
    let s1 := feedChar reg b c
    let s2 := feed reg s1.1 cs
    (s2.1, s1.2 ++ s2.2)

/-- `StreamUnmaskBuffer.flush`: emit the pending buffer verbatim and reset. -/
def flush (b : StreamUnmaskBuffer) : StreamUnmaskBuffer × Str :=
  (⟨BufferState.normal, []⟩, b.buffer)

/-- Feed a list of fragments in order, threading the machine state. -/
def feedMany (reg : EntityRegistry) (b : StreamUnmaskBuffer) :
    List Str → StreamUnmaskBuffer × Str
  | [] => (b, [])
  | f :: fs =>
    let s1 := feed reg b f
    let s2 := feedMany reg s1.1 fs
    (s2.1, s1.2 ++ s2.2)

/-- Total streamed output for a fragment list: all `feed` outputs in order,
followed by the final `flush` output. -/
def streamTotal (reg : EntityRegistry) (frags : List Str) : Str :=
  let s := feedMany reg initBuffer frags
  s.2 ++ (flush s.1).2

/-! ## Association-list (dict) lemmas -/

theorem lookupA_cons_self {β : Type} (k : Str) (v : β) (rest : List (Str × β)) :
    lookupA k ((k, v) :: rest) = some v := by
  show (if k = k then some v else lookupA k rest) = some v
  rw [if_pos rfl]

theorem lookupA_cons_ne {β : Type} {k k' : Str} (v : β) (rest : List (Str × β))
    (h : k' ≠ k) : lookupA k ((k', v) :: rest) = lookupA k rest := by
  show (if k' = k then some v else lookupA k rest) = lookupA k rest
  rw [if_neg h]

theorem lookupA_eq_none {β : Type} (k : Str) :
    ∀ l : List (Str × β), lookupA k l = none ↔ k ∉ l.map Prod.fst := by
  intro l
  induction l with
  | nil => simp [lookupA]
  | cons p rest ih =>
    obtain ⟨k', v⟩ := p
    by_cases h : k' = k
    · subst h
      rw [lookupA_cons_self]
      simp only [List.map_cons, List.mem_cons]
      constructor
      · intro h'; cases h'
      · intro h'; exact absurd (Or.inl trivial) h'
    · rw [lookupA_cons_ne v rest h, ih]
      simp only [List.map_cons, List.mem_cons]
      constructor
      · intro hn hor
        rcases hor with h1 | h2
        · exact h h1.symm
        · exact hn h2
      · intro hall hmem
        exact hall (Or.inr hmem)

theorem lookupA_mem {β : Type} (k : Str) (v : β) :
    ∀ l : List (Str × β), lookupA k l = some v → (k, v) ∈ l := by
  intro l
  induction l with
  | nil => simp [lookupA]
  | cons p rest ih =>
    obtain ⟨k', v'⟩ := p
    intro hl
    by_cases h : k' = k
    · subst h
      rw [lookupA_cons_self] at hl
      injection hl with hv
      subst hv
      exact List.mem_cons_self _ _
    · rw [lookupA_cons_ne v' rest h] at hl
      exact List.mem_cons_of_mem _ (ih hl)

theorem mem_lookupA {β : Type} (k : Str) (v : β) :
    ∀ l : List (Str × β), (l.map Prod.fst).Nodup → (k, v) ∈ l → lookupA k l = some v := by
  intro l
  induction l with
  | nil => simp
  | cons p rest ih =>
    obtain ⟨k', v'⟩ := p
    intro hnd hmem
    simp only [List.map_cons, List.nodup_cons] at hnd
    rcases List.mem_cons.mp hmem with heq | htail
    · rw [Prod.mk.injEq] at heq
      obtain ⟨h1, h2⟩ := heq
      subst h1; subst h2
      exact lookupA_cons_self _ _ _
    · have hk : k' ≠ k := by
        rintro rfl
        exact hnd.1 (List.mem_map_of_mem Prod.fst htail)
      rw [lookupA_cons_ne v' rest hk]
      exact ih hnd.2 htail

theorem lookupA_append {β : Type} (k : Str) (l1 l2 : List (Str × β)) :
    lookupA k (l1 ++ l2) =
      match lookupA k l1 with
      | some v => some v
      | none => lookupA k l2 := by
  induction l1 with
  | nil => simp [lookupA]
  | cons p rest ih =>
    obtain ⟨k', v'⟩ := p
    by_cases h : k' = k
    · subst h
      rw [List.cons_append, lookupA_cons_self, lookupA_cons_self]
    · rw [List.cons_append, lookupA_cons_ne v' _ h, lookupA_cons_ne v' rest h, ih]

theorem dictSet_of_not_mem {β : Type} (k : Str) (v : β) :
    ∀ l : List (Str × β), k ∉ l.map Prod.fst → dictSet k v l = l ++ [(k, v)] := by
  intro l
  induction l with
  | nil => simp [dictSet]
  | cons p rest ih =>
    obtain ⟨k', v'⟩ := p
    intro h
    simp only [List.map_cons, List.mem_cons] at h
    push_neg at h
    have hne : ¬ k' = k := fun he => h.1 he.symm
    simp [dictSet, hne, ih h.2]

/-! ## `pyReplace` unfolding lemmas -/

theorem pyReplaceAux_congr (pat rep : Str) :
    ∀ f1 : Nat, ∀ s : Str, s.length ≤ f1 → ∀ f2 : Nat, s.length ≤ f2 →
      pyReplaceAux pat rep f1 s = pyReplaceAux pat rep f2 s := by
  intro f1
  induction f1 with
  | zero =>
    intro s hs f2 _
    have : s = [] := List.length_eq_zero.mp (Nat.le_zero.mp hs)
    subst this
    cases f2 <;> rfl
  | succ f ih =>
    intro s hs f2 hs2
    cases s with
    | nil => cases f2 <;> rfl
    | cons c rest =>
      cases f2 with
      | zero => simp at hs2
      | succ g =>
        simp only [pyReplaceAux]
        by_cases hcond : pat ≠ [] ∧ startsWith pat (c :: rest) = true
        · rw [if_pos hcond, if_pos hcond]
          have hlen : ((c :: rest).drop pat.length).length ≤ rest.length := by
            have hp : 1 ≤ pat.length := by
              cases pat with
              | nil => exact absurd rfl hcond.1
              | cons _ _ => simp
            simp only [List.length_drop, List.length_cons]
            omega
          have h1 : ((c :: rest).drop pat.length).length ≤ f := by
            simp only [List.length_cons] at hs; omega
          have h2 : ((c :: rest).drop pat.length).length ≤ g := by
            simp only [List.length_cons] at hs2; omega
          rw [ih _ h1 _ h2]
        · rw [if_neg hcond, if_neg hcond]
          have h1 : rest.length ≤ f := by simp only [List.length_cons] at hs; omega
          have h2 : rest.length ≤ g := by simp only [List.length_cons] at hs2; omega
          rw [ih _ h1 _ h2]

theorem pyReplace_nil (pat rep : Str) : pyReplace [] pat rep = [] := rfl

theorem pyReplace_head_match (s pat rep : Str) (hne : pat ≠ []) (hp : PrefixOf pat s) :
    pyReplace s pat rep = rep ++ pyReplace (s.drop pat.length) pat rep := by
  cases s with
  | nil =>
    obtain ⟨t, ht⟩ := hp
    cases pat with
    | nil => exact absurd rfl hne
    | cons _ _ => simp at ht
  | cons c rest =>
    have hsw : startsWith pat (c :: rest) = true := (startsWith_iff pat (c :: rest)).mpr hp
    show pyReplaceAux pat rep (rest.length + 1) (c :: rest) = _
    simp only [pyReplaceAux, if_pos (And.intro hne hsw)]
    congr 1
    apply pyReplaceAux_congr
    · have hp1 : 1 ≤ pat.length := by
        cases pat with
        | nil => exact absurd rfl hne
        | cons _ _ => simp
      simp only [List.length_drop, List.length_cons]
      omega
    · exact Nat.le_refl _

theorem pyReplace_head_miss (c : Char) (rest pat rep : Str)
    (hp : ¬ PrefixOf pat (c :: rest)) :
    pyReplace (c :: rest) pat rep = c :: pyReplace rest pat rep := by
  have hsw : startsWith pat (c :: rest) = false := by
    rcases h : startsWith pat (c :: rest) with _ | _
    · rfl
    · exact absurd ((startsWith_iff pat (c :: rest)).mp h) hp
  show pyReplaceAux pat rep (rest.length + 1) (c :: rest) = _
  simp only [pyReplaceAux, hsw, Bool.false_eq_true, and_false, if_false]
  rfl

/-! ## Decimal rendering lemmas -/

theorem digitChar_ne (n : Nat) :
    digitChar n ≠ '<' ∧ digitChar n ≠ '>' ∧ digitChar n ≠ '_' := by
  unfold digitChar
  repeat' split
  all_goals decide

theorem digitChar_toNat (n : Nat) (h : n < 10) : (digitChar n).toNat = 48 + n := by
  interval_cases n <;> decide

theorem natToStrAux_congr :
    ∀ f1 : Nat, ∀ n : Nat, n < f1 → ∀ f2 : Nat, n < f2 →
      natToStrAux f1 n = natToStrAux f2 n := by
  intro f1
  induction f1 with
  | zero => intro n hn; omega
  | succ f ih =>
    intro n hn f2 hn2
    cases f2 with
    | zero => omega
    | succ g =>
      simp only [natToStrAux]
      by_cases h : n < 10
      · rw [if_pos h, if_pos h]
      · rw [if_neg h, if_neg h]
        have hdiv : n / 10 < n := Nat.div_lt_self (by omega) (by omega)
        rw [ih (n / 10) (by omega) g (by omega)]

theorem natToStr_eq (n : Nat) :
    natToStr n = if n < 10 then [digitChar n]
                 else natToStr (n / 10) ++ [digitChar (n % 10)] := by
  have hstep : natToStr n =
      if n < 10 then [digitChar n] else natToStrAux n (n / 10) ++ [digitChar (n % 10)] := rfl
  rw [hstep]
  by_cases h : n < 10
  · rw [if_pos h, if_pos h]
  · rw [if_neg h, if_neg h]
    have hdiv : n / 10 < n := Nat.div_lt_self (by omega) (by omega)
    unfold natToStr
    rw [natToStrAux_congr n (n / 10) (by omega) (n / 10 + 1) (by omega)]

theorem natToStr_mem (n : Nat) : ∀ c ∈ natToStr n, ∃ m, c = digitChar m := by
  induction n using Nat.strong_induction_on with
  | _ n ih =>
    rw [natToStr_eq]
    by_cases h : n < 10
    · rw [if_pos h]
      intro c hc
      simp only [List.mem_singleton] at hc
      exact ⟨n, hc⟩
    · rw [if_neg h]
      intro c hc
      rcases List.mem_append.mp hc with h1 | h2
      · exact ih (n / 10) (Nat.div_lt_self (by omega) (by omega)) c h1
      · simp only [List.mem_singleton] at h2
        exact ⟨n % 10, h2⟩

theorem natToStr_ne_special (n : Nat) :
    ∀ c ∈ natToStr n, c ≠ '<' ∧ c ≠ '>' ∧ c ≠ '_' := by
  intro c hc
  obtain ⟨m, rfl⟩ := natToStr_mem n c hc
  exact digitChar_ne m

theorem natToStr_ne_nil (n : Nat) : natToStr n ≠ [] := by
  rw [natToStr_eq]
  by_cases h : n < 10 <;> simp [h]

/-- Decimal parsing, used only to prove `natToStr` injective. -/
def strToNatAux : Str → Nat → Nat
  | [], a => a
  | c :: r, a => strToNatAux r (a * 10 + (c.toNat - 48))

theorem strToNatAux_append : ∀ (xs ys : Str) (a : Nat),
    strToNatAux (xs ++ ys) a = strToNatAux ys (strToNatAux xs a) := by
  intro xs
  induction xs with
  | nil => intro ys a; rfl
  | cons c r ih =>
    intro ys a
    show strToNatAux (r ++ ys) (a * 10 + (c.toNat - 48))
        = strToNatAux ys (strToNatAux r (a * 10 + (c.toNat - 48)))
    exact ih ys _

theorem strToNatAux_natToStr (n : Nat) :
    ∀ a : Nat, strToNatAux (natToStr n) a = a * 10 ^ (natToStr n).length + n := by
  induction n using Nat.strong_induction_on with
  | _ n ih =>
    intro a
    rw [natToStr_eq]
    by_cases h : n < 10
    · rw [if_pos h]
      show (a * 10 + ((digitChar n).toNat - 48)) = a * 10 ^ 1 + n
      rw [digitChar_toNat n h]
      omega
    · rw [if_neg h]
      have hdiv : n / 10 < n := Nat.div_lt_self (by omega) (by omega)
      rw [strToNatAux_append, ih (n / 10) hdiv a]
      show (a * 10 ^ (natToStr (n / 10)).length + n / 10) * 10 + ((digitChar (n % 10)).toNat - 48) = _
      rw [digitChar_toNat (n % 10) (Nat.mod_lt _ (by omega))]
      have hlen : ((natToStr (n / 10)) ++ [digitChar (n % 10)]).length
          = (natToStr (n / 10)).length + 1 := by simp
      rw [hlen, pow_succ]
      have := Nat.div_add_mod n 10
      ring_nf
      omega

theorem natToStr_inj {m n : Nat} (h : natToStr m = natToStr n) : m = n := by
  have hm := strToNatAux_natToStr m 0
  have hn := strToNatAux_natToStr n 0
  rw [h] at hm
  simp only [Nat.zero_mul, Nat.zero_add] at hm hn
  rw [hm] at hn
  exact hn

/-! ## Token shape -/

/-- Character allowed inside a token body (anything but the delimiters). -/
def noAngle (c : Char) : Bool := !(c = '<') && !(c = '>')

/-- Does this string consist of delimiter-free characters followed by `>`? -/
def wfTokMid : Str → Bool
  | [] => false
  | c :: rest => if rest = [] then c = '>' else noAngle c && wfTokMid rest

/-- Boolean token well-formedness: `<`, then delimiter-free body, then `>`. -/
def wfTokB : Str → Bool
  | [] => false
  | c :: rest => c = '<' && wfTokMid rest

/-- A well-formed token: shape `<body>` where the body contains neither
delimiter.  Every `<KIND_N>` token produced by the registry has this shape. -/
def wfToken (t : Str) : Prop := wfTokB t = true

theorem wfTokMid_iff : ∀ l : Str,
    wfTokMid l = true ↔ ∃ mid, l = mid ++ ['>'] ∧ ∀ c ∈ mid, c ≠ '<' ∧ c ≠ '>' := by
  intro l
  induction l with
  | nil =>
    simp only [wfTokMid]
    constructor
    · intro h; cases h
    · rintro ⟨mid, hmid, -⟩
      exact absurd hmid.symm (by simp)
  | cons c rest ih =>
    by_cases hr : rest = []
    · subst hr
      simp only [wfTokMid, if_pos rfl]
      constructor
      · intro h
        have hc : c = '>' := by
          rcases hcc : (c = '>' : Bool) with _ | _
          · rw [hcc] at h; cases h
          · exact of_decide_eq_true hcc
        exact ⟨[], by rw [hc]; rfl, by simp⟩
      · rintro ⟨mid, hmid, -⟩
        cases mid with
        | nil =>
          simp only [List.nil_append, List.cons.injEq] at hmid
          rw [hmid.1]
          simp
        | cons m mrest =>
          simp only [List.cons_append, List.cons.injEq] at hmid
          exact absurd hmid.2.symm (by simp)
    · simp only [wfTokMid, if_neg hr, Bool.and_eq_true, ih]
      constructor
      · rintro ⟨hna, mid, hmid, hmem⟩
        refine ⟨c :: mid, by rw [hmid]; rfl, ?_⟩
        intro x hx
        rcases List.mem_cons.mp hx with rfl | hx'
        · unfold noAngle at hna
          simp only [Bool.and_eq_true, Bool.not_eq_true', decide_eq_false_iff_not] at hna
          exact hna
        · exact hmem x hx'
      · rintro ⟨mid, hmid, hmem⟩
        cases mid with
        | nil =>
          simp only [List.nil_append, List.cons.injEq] at hmid
          exact absurd hmid.2 hr
        | cons m mrest =>
          simp only [List.cons_append, List.cons.injEq] at hmid
          obtain ⟨heq, hrest⟩ := hmid
          subst heq
          have hm := hmem c (List.mem_cons_self _ _)
          refine ⟨?_, mrest, hrest, fun x hx => hmem x (List.mem_cons_of_mem _ hx)⟩
          unfold noAngle
          simp only [Bool.and_eq_true, Bool.not_eq_true', decide_eq_false_iff_not]
          exact ⟨hm.1, hm.2⟩

theorem wfToken_iff (t : Str) :
    wfToken t ↔ ∃ mid, t = '<' :: mid ++ ['>'] ∧ ∀ c ∈ mid, c ≠ '<' ∧ c ≠ '>' := by
  cases t with
  | nil =>
    unfold wfToken wfTokB
    constructor
    · intro h; cases h
    · rintro ⟨mid, hmid, -⟩
      cases hmid
  | cons c rest =>
    unfold wfToken wfTokB
    simp only [Bool.and_eq_true, decide_eq_true_eq, wfTokMid_iff]
    constructor
    · rintro ⟨rfl, mid, rfl, hmem⟩
      exact ⟨mid, rfl, hmem⟩
    · rintro ⟨mid, hmid, hmem⟩
      injection hmid with h1 h2
      exact ⟨h1, mid, h2, hmem⟩

/-- Kind strings usable in tokens: no angle-bracket characters.  Every kind in
the fixed enumeration (EMAIL, PHONE, SSN, CREDIT_CARD, IP_ADDRESS, IBAN,
DATE_OF_BIRTH, PERSON, ORG, LOCATION) satisfies this. -/
def kindOK (k : Str) : Prop := ∀ c ∈ k, c ≠ '<' ∧ c ≠ '>'

instance instKindOKDec (k : Str) : Decidable (kindOK k) :=
  inferInstanceAs (Decidable (∀ c ∈ k, c ≠ '<' ∧ c ≠ '>'))

theorem mkToken_shape (k : Str) (c : Nat) :
    mkToken k c = '<' :: (k ++ '_' :: natToStr c) ++ ['>'] := by
  simp only [mkToken, List.cons_append, List.append_assoc]

theorem wfToken_mkToken (k : Str) (c : Nat) (hk : kindOK k) : wfToken (mkToken k c) := by
  rw [wfToken_iff]
  refine ⟨k ++ '_' :: natToStr c, by rw [mkToken_shape], ?_⟩
  intro x hx
  rcases List.mem_append.mp hx with h1 | h2
  · exact hk x h1
  · rcases List.mem_cons.mp h2 with rfl | h3
    · exact ⟨by decide, by decide⟩
    · have := natToStr_ne_special c x h3
      exact ⟨this.1, this.2.1⟩

theorem append_underscore_inj :
    ∀ (k1 k2 d1 d2 : Str), '_' ∉ d1 → '_' ∉ d2 →
      k1 ++ '_' :: d1 = k2 ++ '_' :: d2 → k1 = k2 ∧ d1 = d2 := by
  intro k1
  induction k1 with
  | nil =>
    intro k2 d1 d2 h1 h2 heq
    cases k2 with
    | nil =>
      simp only [List.nil_append, List.cons.injEq] at heq
      exact ⟨rfl, heq.2⟩
    | cons c k2' =>
      simp only [List.nil_append, List.cons_append, List.cons.injEq] at heq
      exfalso
      apply h1
      rw [heq.2]
      exact List.mem_append.mpr (Or.inr (List.mem_cons_self _ _))
  | cons c k1' ih =>
    intro k2 d1 d2 h1 h2 heq
    cases k2 with
    | nil =>
      simp only [List.cons_append, List.nil_append, List.cons.injEq] at heq
      exfalso
      apply h2
      rw [← heq.2]
      exact List.mem_append.mpr (Or.inr (List.mem_cons_self _ _))
    | cons c' k2' =>
      simp only [List.cons_append, List.cons.injEq] at heq
      obtain ⟨rfl, heq'⟩ := heq
      obtain ⟨hk, hd⟩ := ih k2' d1 d2 h1 h2 heq'
      exact ⟨by rw [hk], hd⟩

theorem mkToken_inj {k1 k2 : Str} {c1 c2 : Nat}
    (h : mkToken k1 c1 = mkToken k2 c2) : k1 = k2 ∧ c1 = c2 := by
  rw [mkToken_shape, mkToken_shape] at h
  have h' : '<' :: ((k1 ++ '_' :: natToStr c1) ++ ['>'])
      = '<' :: ((k2 ++ '_' :: natToStr c2) ++ ['>']) := h
  injection h' with h1 h2
  have h3 : k1 ++ '_' :: natToStr c1 = k2 ++ '_' :: natToStr c2 :=
    List.append_cancel_right h2
  have hu1 : '_' ∉ natToStr c1 := fun hx => (natToStr_ne_special c1 '_' hx).2.2 rfl
  have hu2 : '_' ∉ natToStr c2 := fun hx => (natToStr_ne_special c2 '_' hx).2.2 rfl
  obtain ⟨hk, hd⟩ := append_underscore_inj k1 k2 _ _ hu1 hu2 h3
  exact ⟨hk, natToStr_inj hd⟩

/-! ## Registry reachability and invariants -/

/-- The per-kind counter (`_type_counters.get(pii_type, 0)`). -/
def counterOf (R : EntityRegistry) (k : Str) : Nat :=
  (lookupA k R.type_counters).getD 0

/-- Registries reachable from a fresh registry through `get_or_create_token`
calls whose kind satisfies `Pk` and whose stripped value satisfies `Pv`. -/
inductive Reaches (Pk Pv : Str → Prop) : EntityRegistry → Prop where
  | init : Reaches Pk Pv emptyRegistry
  | step (R : EntityRegistry) (k v : Str) :
      Reaches Pk Pv R → Pk k → Pv (pyStrip v) →
      Reaches Pk Pv (get_or_create_token R k v).2

theorem lookupA_dictSet {β : Type} (k k' : Str) (v : β) :
    ∀ l : List (Str × β),
      lookupA k' (dictSet k v l) = if k = k' then some v else lookupA k' l := by
  intro l
  induction l with
  | nil =>
    show lookupA k' [(k, v)] = _
    by_cases h : k = k'
    · subst h; rw [if_pos rfl, lookupA_cons_self]
    · rw [if_neg h, lookupA_cons_ne _ _ h]
  | cons p rest ih =>
    obtain ⟨a, b⟩ := p
    show lookupA k' (if a = k then (a, v) :: rest else (a, b) :: dictSet k v rest) = _
    by_cases hak : a = k
    · subst hak
      rw [if_pos rfl]
      by_cases h : a = k'
      · subst h; rw [if_pos rfl, lookupA_cons_self]
      · rw [if_neg h, lookupA_cons_ne _ _ h, lookupA_cons_ne _ _ h]
    · rw [if_neg hak]
      by_cases h : a = k'
      · subst h
        have hk : ¬ k = a := fun he => hak he.symm
        rw [if_neg hk, lookupA_cons_self, lookupA_cons_self]
      · rw [lookupA_cons_ne _ _ h, lookupA_cons_ne _ _ h, ih]

theorem get_or_create_token_found {R : EntityRegistry} {k v t : Str}
    (h : lookupA (pyStrip v) R.value_to_token = some t) :
    get_or_create_token R k v = (t, R) := by
  simp only [get_or_create_token, h]

theorem get_or_create_token_fresh {R : EntityRegistry} {k v : Str}
    (h : lookupA (pyStrip v) R.value_to_token = none) :
    get_or_create_token R k v =
      (mkToken k (counterOf R k + 1),
       { value_to_token := dictSet (pyStrip v) (mkToken k (counterOf R k + 1)) R.value_to_token
         token_to_value := dictSet (mkToken k (counterOf R k + 1)) (pyStrip v) R.token_to_value
         type_counters := dictSet k (counterOf R k + 1) R.type_counters }) := by
  simp only [get_or_create_token, counterOf, h]

/-- The maintained registry invariant: the two maps mirror each other, keys
are duplicate-free on both sides, values satisfy `Pv`, and every token has
the minted `<KIND_N>` form with a counter within the per-kind bound. -/
def RegInv (Pk Pv : Str → Prop) (R : EntityRegistry) : Prop :=
  R.token_to_value = R.value_to_token.map (fun p => (p.2, p.1)) ∧
  (R.value_to_token.map Prod.fst).Nodup ∧
  (R.token_to_value.map Prod.fst).Nodup ∧
  (∀ p ∈ R.value_to_token, Pv p.1) ∧
  (∀ p ∈ R.token_to_value, ∃ k c, Pk k ∧ p.1 = mkToken k c ∧ 1 ≤ c ∧ c ≤ counterOf R k)

theorem regInv_token_fresh {Pk Pv : Str → Prop} {R : EntityRegistry}
    (hinv : RegInv Pk Pv R) (k : Str) :
    mkToken k (counterOf R k + 1) ∉ R.token_to_value.map Prod.fst := by
  intro hmem
  obtain ⟨p, hp, hfst⟩ := List.mem_map.mp hmem
  obtain ⟨k', c', _, hshape, hc1, hc2⟩ := hinv.2.2.2.2 p hp
  rw [hfst] at hshape
  obtain ⟨rfl, hc⟩ := mkToken_inj hshape.symm
  omega

theorem nodup_snoc {α : Type} (l : List α) (x : α) (hl : l.Nodup) (hx : x ∉ l) :
    (l ++ [x]).Nodup := by
  induction l with
  | nil => simp
  | cons a rest ih =>
    simp only [List.nodup_cons] at hl
    have hxr : x ∉ rest := fun h => hx (List.mem_cons_of_mem _ h)
    have hax : a ∉ rest ++ [x] := by
      intro h
      rcases List.mem_append.mp h with h1 | h2
      · exact hl.1 h1
      · simp only [List.mem_singleton] at h2
        exact hx (by rw [← h2]; exact List.mem_cons_self _ _)
    rw [List.cons_append, List.nodup_cons]
    exact ⟨hax, ih hl.2 hxr⟩

theorem regInv_of_reaches {Pk Pv : Str → Prop} :
    ∀ R : EntityRegistry, Reaches Pk Pv R → RegInv Pk Pv R := by
  intro R h
  induction h with
  | init =>
    refine ⟨rfl, by simp [emptyRegistry], by simp [emptyRegistry], ?_, ?_⟩
    · intro p hp; cases hp
    · intro p hp; cases hp
  | step R k v _ hPk hPv ih =>
    rcases hlk : lookupA (pyStrip v) R.value_to_token with _ | t
    · -- fresh value: both maps get a new final entry
      rw [get_or_create_token_fresh hlk]
      have htokfresh : mkToken k (counterOf R k + 1) ∉ R.token_to_value.map Prod.fst :=
        regInv_token_fresh ih k
      obtain ⟨hswap, hnd1, hnd2, hPvs, hshapes⟩ := ih
      have hkeyfresh : pyStrip v ∉ R.value_to_token.map Prod.fst :=
        (lookupA_eq_none _ _).mp hlk
      have hv2t : dictSet (pyStrip v) (mkToken k (counterOf R k + 1)) R.value_to_token
          = R.value_to_token ++ [(pyStrip v, mkToken k (counterOf R k + 1))] :=
        dictSet_of_not_mem _ _ _ hkeyfresh
      have ht2v : dictSet (mkToken k (counterOf R k + 1)) (pyStrip v) R.token_to_value
          = R.token_to_value ++ [(mkToken k (counterOf R k + 1), pyStrip v)] :=
        dictSet_of_not_mem _ _ _ htokfresh
      have hcnt : ∀ k' : Str,
          counterOf ⟨dictSet (pyStrip v) (mkToken k (counterOf R k + 1)) R.value_to_token,
                     dictSet (mkToken k (counterOf R k + 1)) (pyStrip v) R.token_to_value,
                     dictSet k (counterOf R k + 1) R.type_counters⟩ k'
            = if k = k' then counterOf R k + 1 else counterOf R k' := by
        intro k'
        unfold counterOf
        show ((lookupA k' (dictSet k (counterOf R k + 1) R.type_counters)).getD 0) = _
        rw [lookupA_dictSet]
        by_cases h : k = k'
        · rw [if_pos h, if_pos h]; rfl
        · rw [if_neg h, if_neg h]
      refine ⟨?_, ?_, ?_, ?_, ?_⟩
      · show dictSet (mkToken k (counterOf R k + 1)) (pyStrip v) R.token_to_value = _
        rw [ht2v, hv2t, List.map_append, ← hswap]
        rfl
      · show ((dictSet (pyStrip v) (mkToken k (counterOf R k + 1))
            R.value_to_token).map Prod.fst).Nodup
        rw [hv2t, List.map_append]
        exact nodup_snoc _ _ hnd1 hkeyfresh
      · show ((dictSet (mkToken k (counterOf R k + 1)) (pyStrip v)
            R.token_to_value).map Prod.fst).Nodup
        rw [ht2v, List.map_append]
        exact nodup_snoc _ _ hnd2 htokfresh
      · intro p hp
        rw [hv2t] at hp
        rcases List.mem_append.mp hp with h1 | h2
        · exact hPvs p h1
        · simp only [List.mem_singleton] at h2
          rw [h2]
          exact hPv
      · intro p hp
        rw [ht2v] at hp
        rcases List.mem_append.mp hp with h1 | h2
        · obtain ⟨k', c', hPk', hshape, hc1, hc2⟩ := hshapes p h1
          refine ⟨k', c', hPk', hshape, hc1, ?_⟩
          rw [hcnt k']
          by_cases h : k = k' <;> simp [h] <;> omega
        · simp only [List.mem_singleton] at h2
          refine ⟨k, counterOf R k + 1, hPk, by rw [h2], by omega, ?_⟩
          rw [hcnt k, if_pos rfl]
    · -- value already present: registry unchanged
      rw [get_or_create_token_found hlk]
      exact ih

theorem counterOf_fresh {R : EntityRegistry} {k v : Str}
    (h : lookupA (pyStrip v) R.value_to_token = none) (k' : Str) :
    counterOf (get_or_create_token R k v).2 k'
      = if k = k' then counterOf R k + 1 else counterOf R k' := by
  rw [get_or_create_token_fresh h]
  show ((lookupA k' (dictSet k (counterOf R k + 1) R.type_counters)).getD 0) = _
  rw [lookupA_dictSet]
  by_cases hk : k = k'
  · rw [if_pos hk, if_pos hk]; rfl
  · rw [if_neg hk, if_neg hk]; rfl

theorem get_or_create_lookup_self (R : EntityRegistry) (k v : Str) :
    lookupA (pyStrip v) (get_or_create_token R k v).2.value_to_token
      = some (get_or_create_token R k v).1 := by
  rcases hlk : lookupA (pyStrip v) R.value_to_token with _ | t
  · rw [get_or_create_token_fresh hlk]
    show lookupA (pyStrip v)
        (dictSet (pyStrip v) (mkToken k (counterOf R k + 1)) R.value_to_token) = _
    rw [lookupA_dictSet, if_pos rfl]
  · rw [get_or_create_token_found hlk]
    exact hlk

theorem v2t_lookup_mono {R : EntityRegistry} {key t : Str} (k' v'' : Str)
    (h : lookupA key R.value_to_token = some t) :
    lookupA key (get_or_create_token R k' v'').2.value_to_token = some t := by
  rcases hlk : lookupA (pyStrip v'') R.value_to_token with _ | t'
  · rw [get_or_create_token_fresh hlk]
    show lookupA key
        (dictSet (pyStrip v'') (mkToken k' (counterOf R k' + 1)) R.value_to_token) = _
    rw [lookupA_dictSet]
    have hne : ¬ pyStrip v'' = key := by
      intro he
      rw [he, h] at hlk
      cases hlk
    rw [if_neg hne]
    exact h
  · rw [get_or_create_token_found hlk]
    exact h

theorem t2v_lookup_mono {Pk Pv : Str → Prop} {R : EntityRegistry}
    (hre : Reaches Pk Pv R) {t val : Str} (k' v'' : Str)
    (h : lookupA t R.token_to_value = some val) :
    lookupA t (get_or_create_token R k' v'').2.token_to_value = some val := by
  rcases hlk : lookupA (pyStrip v'') R.value_to_token with _ | t'
  · rw [get_or_create_token_fresh hlk]
    have htokfresh := regInv_token_fresh (regInv_of_reaches R hre) k'
    show lookupA t
        (dictSet (mkToken k' (counterOf R k' + 1)) (pyStrip v'') R.token_to_value) = _
    rw [dictSet_of_not_mem _ _ _ htokfresh, lookupA_append, h]
  · rw [get_or_create_token_found hlk]
    exact h

/-- The token returned by `get_or_create_token` is mapped back to the stripped
value in the updated `token_to_value` map. -/
theorem get_or_create_t2v_self {Pk Pv : Str → Prop} {R : EntityRegistry}
    (hre : Reaches Pk Pv R) (k v : Str) :
    lookupA (get_or_create_token R k v).1 (get_or_create_token R k v).2.token_to_value
      = some (pyStrip v) := by
  rcases hlk : lookupA (pyStrip v) R.value_to_token with _ | t
  · rw [get_or_create_token_fresh hlk]
    have htokfresh := regInv_token_fresh (regInv_of_reaches R hre) k
    show lookupA (mkToken k (counterOf R k + 1))
        (dictSet (mkToken k (counterOf R k + 1)) (pyStrip v) R.token_to_value) = _
    rw [dictSet_of_not_mem _ _ _ htokfresh, lookupA_append,
      (lookupA_eq_none _ _).mpr htokfresh, lookupA_cons_self]
  · rw [get_or_create_token_found hlk]
    obtain ⟨hswap, hnd1, hnd2, _, _⟩ := regInv_of_reaches R hre
    have hmem : (pyStrip v, t) ∈ R.value_to_token := lookupA_mem _ _ _ hlk
    have hmem2 : (t, pyStrip v) ∈ R.token_to_value := by
      rw [hswap]
      exact List.mem_map.mpr ⟨(pyStrip v, t), hmem, rfl⟩
    exact mem_lookupA _ _ _ hnd2 hmem2

/-- Every token stored in a reachable registry is well-formed, provided all
kinds used satisfy `kindOK`. -/
theorem t2v_wfToken {Pv : Str → Prop} {R : EntityRegistry}
    (hre : Reaches kindOK Pv R) :
    ∀ p ∈ R.token_to_value, wfToken p.1 := by
  intro p hp
  obtain ⟨k, c, hPk, hshape, _, _⟩ := (regInv_of_reaches R hre).2.2.2.2 p hp
  rw [hshape]
  exact wfToken_mkToken k c hPk

/-! ## Stream machine lemmas -/

/-- Concatenation of a fragment list. -/
def joinAll : List Str → Str
  | [] => []
  | s :: ss => s ++ joinAll ss

theorem feed_append (reg : EntityRegistry) :
    ∀ (x : Str) (b : StreamUnmaskBuffer) (y : Str),
      feed reg b (x ++ y)
        = ((feed reg (feed reg b x).1 y).1,
           (feed reg b x).2 ++ (feed reg (feed reg b x).1 y).2) := by
  intro x
  induction x with
  | nil => intro b y; simp [feed]
  | cons c cs ih =>
    intro b y
    show feed reg b (c :: (cs ++ y)) = _
    simp only [feed]
    rw [ih]
    simp [List.append_assoc, feed]

theorem feedMany_join (reg : EntityRegistry) :
    ∀ (frags : List Str) (b : StreamUnmaskBuffer),
      feedMany reg b frags = feed reg b (joinAll frags) := by
  intro frags
  induction frags with
  | nil => intro b; simp [feedMany, joinAll, feed]
  | cons f fs ih =>
    intro b
    simp only [feedMany, joinAll]
    rw [ih, feed_append]

theorem feedChar_buffer_le (reg : EntityRegistry) (b : StreamUnmaskBuffer) (c : Char)
    (h : b.buffer.length ≤ MAX_TOKEN_LEN) :
    (feedChar reg b c).1.buffer.length ≤ MAX_TOKEN_LEN := by
  rcases b with ⟨st, buf⟩
  simp only at h
  cases st with
  | normal =>
    by_cases hc : c = '<'
    · subst hc
      simp [feedChar, MAX_TOKEN_LEN]
    · simpa [feedChar, hc] using h
  | buffering =>
    by_cases hc : c = '>'
    · subst hc
      rcases hl : lookupA (buf ++ ['>']) reg.token_to_value with _ | v <;>
        simp [feedChar, hl]
    · by_cases hlen : MAX_TOKEN_LEN < buf.length + 1
      · simp [feedChar, hc, hlen]
      · simp [feedChar, hc, hlen]
        omega

theorem feed_buffer_le (reg : EntityRegistry) :
    ∀ (chunk : Str) (b : StreamUnmaskBuffer), b.buffer.length ≤ MAX_TOKEN_LEN →
      (feed reg b chunk).1.buffer.length ≤ MAX_TOKEN_LEN := by
  intro chunk
  induction chunk with
  | nil => intro b h; exact h
  | cons c cs ih =>
    intro b h
    show (feed reg (feedChar reg b c).1 cs).1.buffer.length ≤ MAX_TOKEN_LEN
    exact ih _ (feedChar_buffer_le reg b c h)

theorem feedChar_overflow (reg : EntityRegistry) (b : StreamUnmaskBuffer) (c : Char)
    (hs : b.state = BufferState.buffering) (hc : c ≠ '>')
    (hlen : MAX_TOKEN_LEN < b.buffer.length + 1) :
    feedChar reg b c = (⟨BufferState.normal, []⟩, b.buffer ++ [c]) := by
  unfold feedChar
  rw [hs]
  have hlen' : MAX_TOKEN_LEN < (b.buffer ++ [c]).length := by
    simp only [List.length_append, List.length_singleton]
    omega
  simp [hc, hlen']
  omega

theorem feedChar_unknown (reg : EntityRegistry) (b : StreamUnmaskBuffer)
    (hs : b.state = BufferState.buffering)
    (hl : lookupA (b.buffer ++ ['>']) reg.token_to_value = none) :
    feedChar reg b '>' = (⟨BufferState.normal, []⟩, b.buffer ++ ['>']) := by
  unfold feedChar
  rw [hs]
  simp [hl]

/-! ## Well-formed texts as token/literal pieces

A text made of registered `<KIND_N>` tokens interleaved with ordinary
(non-`<`) characters is represented as a list of pieces; `render` is the
text itself and `renderOut` the text with every token replaced by its
registry value.  Both the streaming machine and the non-streaming `unmask`
are proved to produce `renderOut` on such texts. -/

inductive Piece where
  | lit (c : Char)
  | tok (t : Str)
  deriving DecidableEq

def renderPiece : Piece → Str
  | Piece.lit c => [c]
  | Piece.tok t => t

def render : List Piece → Str
  | [] => []
  | p :: ps => renderPiece p ++ render ps

def outPiece (entries : List (Str × Str)) : Piece → Str
  | Piece.lit c => [c]
  | Piece.tok t => (lookupA t entries).getD t

def renderOut (entries : List (Str × Str)) : List Piece → Str
  | [] => []
  | p :: ps => outPiece entries p ++ renderOut entries ps

def litify (s : Str) : List Piece := s.map Piece.lit

def substPieces (t0 v0 : Str) : List Piece → List Piece
  | [] => []
  | Piece.lit c :: ps => Piece.lit c :: substPieces t0 v0 ps
  | Piece.tok t :: ps =>
    (if t = t0 then litify v0 else [Piece.tok t]) ++ substPieces t0 v0 ps

/-- Pieces compatible with an entry list: literal characters are not `<` and
every token is well-formed and present in the entries. -/
def GoodU (entries : List (Str × Str)) : List Piece → Prop
  | [] => True
  | Piece.lit c :: ps => c ≠ '<' ∧ GoodU entries ps
  | Piece.tok t :: ps => wfToken t ∧ (lookupA t entries).isSome = true ∧ GoodU entries ps

instance instWfTokenDec (t : Str) : Decidable (wfToken t) :=
  inferInstanceAs (Decidable (wfTokB t = true))

instance instGoodUDec (entries : List (Str × Str)) :
    ∀ ps : List Piece, Decidable (GoodU entries ps)
  | [] => inferInstanceAs (Decidable True)
  | Piece.lit _ :: ps =>
    haveI := instGoodUDec entries ps
    inferInstanceAs (Decidable (_ ∧ _))
  | Piece.tok _ :: ps =>
    haveI := instGoodUDec entries ps
    inferInstanceAs (Decidable (_ ∧ _ ∧ _))

/-- Registry entry list suitable for streaming-vs-unmask equivalence:
tokens are well-formed, short enough for the 30-character buffer bound, and
values contain no `<`. -/
def wfReg (entries : List (Str × Str)) : Prop :=
  ∀ p ∈ entries, wfToken p.1 ∧ p.1.length ≤ 31 ∧ '<' ∉ p.2

instance instWfRegDec (entries : List (Str × Str)) : Decidable (wfReg entries) :=
  inferInstanceAs (Decidable (∀ p ∈ entries, wfToken p.1 ∧ p.1.length ≤ 31 ∧ '<' ∉ p.2))

theorem render_append : ∀ a b : List Piece, render (a ++ b) = render a ++ render b := by
  intro a b
  induction a with
  | nil => rfl
  | cons p ps ih =>
    show renderPiece p ++ render (ps ++ b) = (renderPiece p ++ render ps) ++ render b
    rw [ih, List.append_assoc]

theorem render_litify : ∀ s : Str, render (litify s) = s := by
  intro s
  induction s with
  | nil => rfl
  | cons c cs ih =>
    show [c] ++ render (litify cs) = c :: cs
    rw [ih]
    rfl

theorem renderOut_append (entries : List (Str × Str)) :
    ∀ a b : List Piece, renderOut entries (a ++ b)
      = renderOut entries a ++ renderOut entries b := by
  intro a b
  induction a with
  | nil => rfl
  | cons p ps ih =>
    show outPiece entries p ++ renderOut entries (ps ++ b)
      = (outPiece entries p ++ renderOut entries ps) ++ renderOut entries b
    rw [ih, List.append_assoc]

theorem renderOut_litify (entries : List (Str × Str)) :
    ∀ s : Str, renderOut entries (litify s) = s := by
  intro s
  induction s with
  | nil => rfl
  | cons c cs ih =>
    show [c] ++ renderOut entries (litify cs) = c :: cs
    rw [ih]
    rfl

theorem renderOut_nil_entries : ∀ ps : List Piece, renderOut [] ps = render ps := by
  intro ps
  induction ps with
  | nil => rfl
  | cons p ps ih =>
    show outPiece [] p ++ renderOut [] ps = renderPiece p ++ render ps
    rw [ih]
    cases p with
    | lit c => rfl
    | tok t => rfl

theorem goodU_append (entries : List (Str × Str)) :
    ∀ a b : List Piece, GoodU entries a → GoodU entries b → GoodU entries (a ++ b) := by
  intro a b
  induction a with
  | nil => intro _ hb; exact hb
  | cons p ps ih =>
    intro ha hb
    cases p with
    | lit c => exact ⟨ha.1, ih ha.2 hb⟩
    | tok t => exact ⟨ha.1, ha.2.1, ih ha.2.2 hb⟩

theorem goodU_litify (entries : List (Str × Str)) :
    ∀ s : Str, (∀ c ∈ s, c ≠ '<') → GoodU entries (litify s) := by
  intro s
  induction s with
  | nil => intro _; trivial
  | cons c cs ih =>
    intro h
    exact ⟨h c (List.mem_cons_self _ _), ih fun x hx => h x (List.mem_cons_of_mem _ hx)⟩

/-! ## Occurrence analysis for `pyReplace` on well-formed texts -/

/-- Suffix relation on character lists. -/
def SuffixOf (a b : Str) : Prop := ∃ t, t ++ a = b

theorem suffixOf_of_cons {s : Str} {x : Char} {rest : Str} (h : SuffixOf s (x :: rest)) :
    s = x :: rest ∨ SuffixOf s rest := by
  obtain ⟨t, ht⟩ := h
  cases t with
  | nil => exact Or.inl ht
  | cons c t' =>
    injection ht with h1 h2
    exact Or.inr ⟨t', h2⟩

theorem suffixOf_cons {s : Str} (c : Char) {l : Str} (h : SuffixOf s l) :
    SuffixOf s (c :: l) := by
  obtain ⟨t, ht⟩ := h
  exact ⟨c :: t, by rw [List.cons_append, ht]⟩

theorem mem_of_suffixOf {c : Char} {cs l : Str} (h : SuffixOf (c :: cs) l) : c ∈ l := by
  obtain ⟨t, ht⟩ := h
  rw [← ht]
  exact List.mem_append.mpr (Or.inr (List.mem_cons_self _ _))

theorem prefixOf_append_of_le :
    ∀ (a b x y : Str), a ++ x = b ++ y → a.length ≤ b.length → ∃ w, a ++ w = b := by
  intro a
  induction a with
  | nil => intro b x y _ _; exact ⟨b, rfl⟩
  | cons c a' ih =>
    intro b x y h hlen
    cases b with
    | nil => simp at hlen
    | cons d b' =>
      injection h with h1 h2
      obtain ⟨w, hw⟩ := ih b' x y h2 (by simpa using hlen)
      subst h1
      exact ⟨w, by rw [List.cons_append, hw]⟩

theorem append_marker_inj_left (x : Char) :
    ∀ (a1 a2 d1 d2 : Str), x ∉ a1 → x ∉ a2 → a1 ++ x :: d1 = a2 ++ x :: d2 →
      a1 = a2 ∧ d1 = d2 := by
  intro a1
  induction a1 with
  | nil =>
    intro a2 d1 d2 _ hx2 heq
    cases a2 with
    | nil =>
      injection heq with _ h2
      exact ⟨rfl, h2⟩
    | cons c a2' =>
      injection heq with h1 _
      subst h1
      exact absurd (List.mem_cons_self _ _) hx2
  | cons c a1' ih =>
    intro a2 d1 d2 hx1 hx2 heq
    cases a2 with
    | nil =>
      injection heq with h1 _
      exact absurd (h1 ▸ List.mem_cons_self c a1') hx1
    | cons d a2' =>
      injection heq with h1 h2
      subst h1
      obtain ⟨ha, hd⟩ :=
        ih a2' d1 d2 (fun hm => hx1 (List.mem_cons_of_mem _ hm))
          (fun hm => hx2 (List.mem_cons_of_mem _ hm)) h2
      exact ⟨by rw [ha], hd⟩

theorem wfToken_ne_nil {t : Str} (h : wfToken t) : t ≠ [] := by
  obtain ⟨m, hm, -⟩ := (wfToken_iff t).mp h
  rw [hm]
  simp

/-- A well-formed token is never a prefix of a different well-formed token
followed by anything: occurrences of tokens can only start at token
positions. -/
theorem wf_not_overlap {t0 t : Str} (ht0 : wfToken t0) (ht : wfToken t)
    (hne : t0 ≠ t) (Y : Str) : ¬ PrefixOf t0 (t ++ Y) := by
  rintro ⟨u, hu⟩
  obtain ⟨m0, h0, hm0⟩ := (wfToken_iff t0).mp ht0
  obtain ⟨m, hm1, hmm⟩ := (wfToken_iff t).mp ht
  have hx0 : '>' ∉ m0 := fun hmem => (hm0 '>' hmem).2 rfl
  have hx1 : '>' ∉ m := fun hmem => (hmm '>' hmem).2 rfl
  rcases Nat.le_total t0.length t.length with hle | hle
  · obtain ⟨w, hw⟩ := prefixOf_append_of_le t0 t u Y hu hle
    rw [h0, hm1] at hw
    have hw' : m0 ++ '>' :: w = m ++ '>' :: [] := by
      have hc : '<' :: ((m0 ++ ['>']) ++ w) = '<' :: (m ++ ['>']) := hw
      injection hc with _ h2
      rw [List.append_assoc] at h2
      exact h2
    obtain ⟨hm', hw0⟩ := append_marker_inj_left '>' m0 m w [] hx0 hx1 hw'
    exact hne (by rw [h0, hm1, hm'])
  · obtain ⟨w, hw⟩ := prefixOf_append_of_le t t0 Y u hu.symm hle
    rw [h0, hm1] at hw
    have hw' : m ++ '>' :: w = m0 ++ '>' :: [] := by
      have hc : '<' :: ((m ++ ['>']) ++ w) = '<' :: (m0 ++ ['>']) := hw
      injection hc with _ h2
      rw [List.append_assoc] at h2
      exact h2
    obtain ⟨hm', hw0⟩ := append_marker_inj_left '>' m m0 w [] hx1 hx0 hw'
    exact hne (by rw [h0, hm1, hm'])

theorem not_prefixOf_head {t0 : Str} (ht0 : wfToken t0) {c : Char} (hc : c ≠ '<')
    (X : Str) : ¬ PrefixOf t0 (c :: X) := by
  obtain ⟨m0, h0, -⟩ := (wfToken_iff t0).mp ht0
  rintro ⟨u, hu⟩
  rw [h0] at hu
  have hu' : '<' :: ((m0 ++ ['>']) ++ u) = c :: X := hu
  injection hu' with h1 _
  exact hc h1.symm

theorem suffix_head_ne {t : Str} (ht : wfToken t) {c : Char} {cs : Str}
    (hsuf : SuffixOf (c :: cs) t) (hne : c :: cs ≠ t) : c ≠ '<' := by
  obtain ⟨m, hm1, hmm⟩ := (wfToken_iff t).mp ht
  rw [hm1] at hsuf hne
  rcases suffixOf_of_cons hsuf with heq | hsuf'
  · exact absurd heq hne
  · have hc : c ∈ m ++ ['>'] := mem_of_suffixOf hsuf'
    rcases List.mem_append.mp hc with h1 | h2
    · exact (hmm c h1).1
    · simp only [List.mem_singleton] at h2
      rw [h2]
      decide

theorem pyReplace_no_occ (t0 v0 : Str) :
    ∀ (a X : Str), (∀ c cs, SuffixOf (c :: cs) a → ¬ PrefixOf t0 (c :: (cs ++ X))) →
      pyReplace (a ++ X) t0 v0 = a ++ pyReplace X t0 v0 := by
  intro a
  induction a with
  | nil => intro X _; rfl
  | cons c a' ih =>
    intro X h
    have h0 : ¬ PrefixOf t0 (c :: (a' ++ X)) := h c a' ⟨[], rfl⟩
    show pyReplace (c :: (a' ++ X)) t0 v0 = (c :: a') ++ pyReplace X t0 v0
    rw [pyReplace_head_miss c (a' ++ X) t0 v0 h0,
      ih X (fun d ds hsuf => h d ds (suffixOf_cons c hsuf))]
    rfl

/-- Shape-only well-formedness of a piece list. -/
def Shaped : List Piece → Prop
  | [] => True
  | Piece.lit c :: ps => c ≠ '<' ∧ Shaped ps
  | Piece.tok t :: ps => wfToken t ∧ Shaped ps

theorem goodU_shaped (entries : List (Str × Str)) :
    ∀ ps : List Piece, GoodU entries ps → Shaped ps := by
  intro ps
  induction ps with
  | nil => intro _; trivial
  | cons p ps ih =>
    intro h
    cases p with
    | lit c => exact ⟨h.1, ih h.2⟩
    | tok t => exact ⟨h.1, ih h.2.2⟩

/-- A single `str.replace` on a well-formed text replaces exactly the piece
occurrences of the replaced token. -/
theorem pyReplace_render (t0 v0 : Str) (ht0 : wfToken t0) :
    ∀ ps : List Piece, Shaped ps →
      pyReplace (render ps) t0 v0 = render (substPieces t0 v0 ps) := by
  intro ps
  induction ps with
  | nil => intro _; rfl
  | cons p ps ih =>
    intro hs
    cases p with
    | lit c =>
      show pyReplace (c :: render ps) t0 v0
        = render (Piece.lit c :: substPieces t0 v0 ps)
      rw [pyReplace_head_miss c (render ps) t0 v0
        (not_prefixOf_head ht0 hs.1 (render ps)), ih hs.2]
      rfl
    | tok t =>
      by_cases heq : t = t0
      · subst heq
        show pyReplace (t ++ render ps) t v0
          = render (substPieces t v0 (Piece.tok t :: ps))
        rw [pyReplace_head_match (t ++ render ps) t v0 (wfToken_ne_nil ht0)
          ⟨render ps, rfl⟩, List.drop_left, ih hs.2]
        show v0 ++ render (substPieces t v0 ps)
          = render ((if t = t then litify v0 else [Piece.tok t]) ++ substPieces t v0 ps)
        rw [if_pos rfl, render_append, render_litify]
      · show pyReplace (t ++ render ps) t0 v0
          = render (substPieces t0 v0 (Piece.tok t :: ps))
        have hocc : ∀ c cs, SuffixOf (c :: cs) t →
            ¬ PrefixOf t0 (c :: (cs ++ render ps)) := by
          intro c cs hsuf
          by_cases hfull : c :: cs = t
          · subst hfull
            rw [← List.cons_append]
            exact wf_not_overlap ht0 hs.1 (fun he => heq he.symm) (render ps)
          · exact not_prefixOf_head ht0 (suffix_head_ne hs.1 hsuf hfull) _
        rw [pyReplace_no_occ t0 v0 t (render ps) hocc, ih hs.2]
        show t ++ render (substPieces t0 v0 ps)
          = render ((if t = t0 then litify v0 else [Piece.tok t]) ++ substPieces t0 v0 ps)
        rw [if_neg heq, render_append]
        simp [render, renderPiece]

theorem goodU_subst (t1 v1 : Str) (hv : '<' ∉ v1) (rest : List (Str × Str)) :
    ∀ ps : List Piece, GoodU ((t1, v1) :: rest) ps →
      GoodU rest (substPieces t1 v1 ps) := by
  intro ps
  induction ps with
  | nil => intro _; trivial
  | cons p ps ih =>
    intro h
    cases p with
    | lit c => exact ⟨h.1, ih h.2⟩
    | tok t =>
      obtain ⟨hwf, hsome, hrest⟩ := h
      by_cases heq : t = t1
      · show GoodU rest ((if t = t1 then litify v1 else [Piece.tok t]) ++ substPieces t1 v1 ps)
        rw [if_pos heq]
        exact goodU_append rest _ _
          (goodU_litify rest v1 (fun c hc he => hv (he ▸ hc))) (ih hrest)
      · show GoodU rest ((if t = t1 then litify v1 else [Piece.tok t]) ++ substPieces t1 v1 ps)
        rw [if_neg heq]
        have hne : t1 ≠ t := fun he => heq he.symm
        rw [lookupA_cons_ne v1 rest hne] at hsome
        exact goodU_append rest _ _ ⟨hwf, hsome, trivial⟩ (ih hrest)

theorem renderOut_subst (t1 v1 : Str) (rest : List (Str × Str)) :
    ∀ ps : List Piece,
      renderOut rest (substPieces t1 v1 ps) = renderOut ((t1, v1) :: rest) ps := by
  intro ps
  induction ps with
  | nil => rfl
  | cons p ps ih =>
    cases p with
    | lit c =>
      show [c] ++ renderOut rest (substPieces t1 v1 ps) = [c] ++ _
      rw [ih]
    | tok t =>
      show renderOut rest ((if t = t1 then litify v1 else [Piece.tok t]) ++ substPieces t1 v1 ps)
        = (lookupA t ((t1, v1) :: rest)).getD t ++ renderOut ((t1, v1) :: rest) ps
      rw [renderOut_append, ih]
      by_cases heq : t = t1
      · subst heq
        rw [if_pos rfl, renderOut_litify, lookupA_cons_self]
        rfl
      · have hne : t1 ≠ t := fun he => heq he.symm
        rw [if_neg heq, lookupA_cons_ne v1 rest hne]
        simp [renderOut, outPiece]

/-- The non-streaming `unmask` fold on a well-formed text replaces every
token piece with its registry value. -/
theorem unmask_fold :
    ∀ (entries : List (Str × Str)) (ps : List Piece),
      (∀ p ∈ entries, wfToken p.1 ∧ '<' ∉ p.2) → GoodU entries ps →
      List.foldl (fun acc q => pyReplace acc q.1 q.2) (render ps) entries
        = renderOut entries ps := by
  intro entries
  induction entries with
  | nil => intro ps _ _; exact (renderOut_nil_entries ps).symm
  | cons e rest ih =>
    obtain ⟨t1, v1⟩ := e
    intro ps hent hg
    have he1 := hent (t1, v1) (List.mem_cons_self _ _)
    show List.foldl _ (pyReplace (render ps) t1 v1) rest = _
    rw [pyReplace_render t1 v1 he1.1 ps (goodU_shaped _ ps hg),
      ih (substPieces t1 v1 ps) (fun p hp => hent p (List.mem_cons_of_mem _ hp))
        (goodU_subst t1 v1 he1.2 rest ps hg)]
    exact renderOut_subst t1 v1 rest ps

/-! ## Streaming machine on well-formed texts -/

theorem feed_cons (reg : EntityRegistry) (b : StreamUnmaskBuffer) (c : Char) (cs : Str) :
    feed reg b (c :: cs)
      = ((feed reg (feedChar reg b c).1 cs).1,
         (feedChar reg b c).2 ++ (feed reg (feedChar reg b c).1 cs).2) := rfl

theorem feed_token (reg : EntityRegistry) :
    ∀ (mid done : Str), (∀ c ∈ mid, c ≠ '>') →
      done.length + mid.length ≤ MAX_TOKEN_LEN →
      feed reg ⟨BufferState.buffering, done⟩ (mid ++ ['>'])
        = (⟨BufferState.normal, []⟩,
           (lookupA ((done ++ mid) ++ ['>']) reg.token_to_value).getD
             ((done ++ mid) ++ ['>'])) := by
  intro mid
  induction mid with
  | nil =>
    intro done _ _
    have hfc : feedChar reg ⟨BufferState.buffering, done⟩ '>'
        = (⟨BufferState.normal, []⟩,
           (lookupA (done ++ ['>']) reg.token_to_value).getD (done ++ ['>'])) := by
      unfold feedChar
      rcases hl : lookupA (done ++ ['>']) reg.token_to_value with _ | v <;> simp [hl]
    show feed reg ⟨BufferState.buffering, done⟩ ('>' :: []) = _
    rw [feed_cons, hfc]
    simp [feed]
  | cons c mid' ih =>
    intro done hmem hlen
    have hc : c ≠ '>' := hmem c (List.mem_cons_self _ _)
    have hfc : feedChar reg ⟨BufferState.buffering, done⟩ c
        = (⟨BufferState.buffering, done ++ [c]⟩, []) := by
      unfold feedChar
      have hmax : MAX_TOKEN_LEN = 30 := rfl
      have hnlt : ¬ (MAX_TOKEN_LEN < (done ++ [c]).length) := by
        simp only [List.length_append, List.length_singleton]
        simp only [List.length_cons] at hlen
        omega
      have hle : done.length + 1 ≤ MAX_TOKEN_LEN := by
        simp only [List.length_cons] at hlen
        omega
      simp [hc, hnlt, hle]
    show feed reg ⟨BufferState.buffering, done⟩ (c :: (mid' ++ ['>'])) = _
    rw [feed_cons, hfc]
    have hlen' : (done ++ [c]).length + mid'.length ≤ MAX_TOKEN_LEN := by
      simp only [List.length_append, List.length_singleton]
      simp only [List.length_cons] at hlen
      omega
    rw [ih (done ++ [c]) (fun d hd => hmem d (List.mem_cons_of_mem _ hd)) hlen']
    simp [List.append_assoc]

theorem feed_piece (reg : EntityRegistry) (hwf : wfReg reg.token_to_value) :
    ∀ p : Piece, GoodU reg.token_to_value [p] →
      feed reg initBuffer (renderPiece p)
        = (initBuffer, outPiece reg.token_to_value p) := by
  intro p hp
  cases p with
  | lit c =>
    have hc : c ≠ '<' := hp.1
    show feed reg initBuffer [c] = _
    rw [feed_cons]
    have hfc : feedChar reg initBuffer c = (initBuffer, [c]) := by
      unfold feedChar initBuffer
      simp [hc]
    rw [hfc]
    simp [feed, outPiece]
  | tok t =>
    obtain ⟨hwft, hsome, -⟩ := hp
    obtain ⟨v, hv⟩ := Option.isSome_iff_exists.mp hsome
    have hmem2 : (t, v) ∈ reg.token_to_value := lookupA_mem _ _ _ hv
    have hlen : t.length ≤ 31 := (hwf _ hmem2).2.1
    obtain ⟨mid, hshape, hmem⟩ := (wfToken_iff t).mp hwft
    subst hshape
    show feed reg initBuffer ('<' :: (mid ++ ['>'])) = _
    rw [feed_cons]
    have hfc : feedChar reg initBuffer '<' = (⟨BufferState.buffering, ['<']⟩, []) := by
      unfold feedChar initBuffer
      simp
    rw [hfc]
    have hlen' : (['<'] : Str).length + mid.length ≤ MAX_TOKEN_LEN := by
      simp only [List.length_cons, List.length_append, List.length_singleton,
        List.length_nil] at hlen ⊢
      have hmax : MAX_TOKEN_LEN = 30 := rfl
      omega
    rw [feed_token reg mid ['<'] (fun d hd => (hmem d hd).2) hlen']
    simp [outPiece, initBuffer]

theorem feed_render (reg : EntityRegistry) (hwf : wfReg reg.token_to_value) :
    ∀ ps : List Piece, GoodU reg.token_to_value ps →
      feed reg initBuffer (render ps)
        = (initBuffer, renderOut reg.token_to_value ps) := by
  intro ps
  induction ps with
  | nil => intro _; rfl
  | cons p ps ih =>
    intro hg
    have hp1 : GoodU reg.token_to_value [p] := by
      cases p with
      | lit c => exact ⟨hg.1, trivial⟩
      | tok t => exact ⟨hg.1, hg.2.1, trivial⟩
    have hgrest : GoodU reg.token_to_value ps := by
      cases p with
      | lit c => exact hg.2
      | tok t => exact hg.2.2
    show feed reg initBuffer (renderPiece p ++ render ps) = _
    rw [feed_append, feed_piece reg hwf p hp1]
    dsimp only
    rw [ih hgrest]
    rfl

theorem streamTotal_renderOut (reg : EntityRegistry) (hwf : wfReg reg.token_to_value)
    (ps : List Piece) (hg : GoodU reg.token_to_value ps) (frags : List Str)
    (hjoin : joinAll frags = render ps) :
    streamTotal reg frags = renderOut reg.token_to_value ps := by
  unfold streamTotal
  rw [feedMany_join, hjoin, feed_render reg hwf ps hg]
  simp [flush, initBuffer]

theorem unmask_renderOut (reg : EntityRegistry)
    (hwf : wfReg reg.token_to_value) (ps : List Piece)
    (hg : GoodU reg.token_to_value ps) :
    unmask reg (render ps) = renderOut reg.token_to_value ps := by
  unfold unmask
  exact unmask_fold reg.token_to_value ps
    (fun p hp => ⟨(hwf p hp).1, (hwf p hp).2.2⟩) hg

/-! ## Masking pass -/

/-- A detected PII finding: the Python 4-tuple `(pii_type, value, start, end)`
with half-open character offsets (`stop` models `end`, a Lean keyword). -/
structure Finding where
  kind : Str
  value : Str
  start : Nat
  stop : Nat
  deriving DecidableEq

/-- Strict order of the Python sort key `(f[2], -(f[3] - f[2]))`:
start ascending, then longer span first (Python negates the `int` span, so
the second component is modelled on `Int`). -/
def keyLt (f g : Finding) : Prop :=
  f.start < g.start ∨
    (f.start = g.start ∧ ((f.start : Int) - f.stop) < ((g.start : Int) - g.stop))

instance instKeyLtDec (f g : Finding) : Decidable (keyLt f g) := by
  unfold keyLt
  infer_instance

/-- Non-strict version of the sort key order (used to state sortedness). -/
def keyLe (f g : Finding) : Prop := ¬ keyLt g f

/-- Stable insertion: the new element is placed after every earlier element
whose key is strictly smaller, and before the first that is not. -/
def insertFinding (f : Finding) : List Finding → List Finding
  | [] => [f]
  | g :: r => if keyLt g f then g :: insertFinding f r else f :: g :: r

/-- `findings.sort(key=lambda f: (f[2], -(f[3] - f[2])))`: Python's stable
sort, modelled as stable insertion sort (stability plus sortedness determine
the result uniquely, so this agrees with timsort). -/
def sortFindings : List Finding → List Finding
  | [] => []
  | f :: r => insertFinding f (sortFindings r)

/-- The overlap-resolution loop: `last_end` starts at -1 and a finding is
kept iff `start >= last_end`. -/
def dedupeAux : List Finding → Int → List Finding
  | [], _ => []
  | f :: r, lastEnd =>
    if lastEnd ≤ (f.start : Int) then f :: dedupeAux r (f.stop : Int)
    else dedupeAux r lastEnd

def dedupe (l : List Finding) : List Finding := dedupeAux l (-1)

/-- The replacement loop `for pii_type, value, start, end in reversed(filtered)`
with `result = result[:start] + token + result[end:]`; structural recursion,
the head (leftmost) finding is applied last, as in the source. -/
def applyRepl : List Finding → Str → EntityRegistry → Str × EntityRegistry
  | [], text, R => (text, R)
  | f :: rest, text, R =>
    let s := applyRepl rest text R
    let tr := get_or_create_token s.2 f.kind f.value
    (s.1.take f.start ++ tr.1 ++ s.1.drop f.stop, tr.2)

/-- `PIIMaskingService.mask_text`.  The detector (`_detect_regex` over the
seven compiled patterns, plus `_detect_ner` when spaCy is available) runs in
an external regex/NER engine; it is abstracted as the `detect` argument, and
theorems hypothesise exactly the contract those detectors guarantee. -/
def mask_text (detect : Str → List Finding) (text : Str) (registry : EntityRegistry) :
    Str × EntityRegistry :=
  if text.length < 2 then (text, registry)
  else applyRepl (dedupe (sortFindings (detect text))) text registry

/-! ## The SSN pattern, modelled concretely

`_PII_PATTERNS` entry `("SSN", r"\b\d{3}-\d{2}-\d{4}\b")`, used to run the
masking pipeline on a concrete input.  The pattern is fixed-width, so
`finditer` is position scanning with an 11-character jump on each match. -/

/-- Python `\w` on ASCII input: letters, digits, underscore. -/
def isWordChar (c : Char) : Bool := c.isAlphanum || c = '_'

/-- Fixed shape `\d{3}-\d{2}-\d{4}` at the head, followed by a trailing word
boundary (`\b`: end of text or a non-word character). -/
def ssnShape : Str → Bool
  | d1 :: d2 :: d3 :: h1 :: d4 :: d5 :: h2 :: d6 :: d7 :: d8 :: d9 :: rest =>
    d1.isDigit && d2.isDigit && d3.isDigit && (h1 = '-') && d4.isDigit &&
    d5.isDigit && (h2 = '-') && d6.isDigit && d7.isDigit && d8.isDigit &&
    d9.isDigit &&
    (match rest with
     | [] => true
     | c :: _ => !isWordChar c)
  | _ => false

/-- Leading word boundary: start of text or previous character non-word (the
first matched character is a digit, hence a word character). -/
def prevBoundary (s : Str) : Nat → Bool
  | 0 => true
  | j + 1 =>
    match (s.drop j).head? with
    | some c => !isWordChar c
    | none => true

def ssnAt (s : Str) (i : Nat) : Bool := prevBoundary s i && ssnShape (s.drop i)

/-- `finditer` scan: try each offset left to right, jumping over a match
(fuel keeps the recursion structural; the scan advances at least one
position per step). -/
def ssnScanAux (s : Str) : Nat → Nat → List (Nat × Nat)
  | 0, _ => []
  | fuel + 1, i =>
    if s.length < i then []
    else if ssnAt s i then (i, i + 11) :: ssnScanAux s fuel (i + 11)
    else ssnScanAux s fuel (i + 1)

def ssnFind (s : Str) : List (Nat × Nat) := ssnScanAux s (s.length + 1) 0

/-- `_detect_regex` on inputs where only the SSN pattern can match: each
match contributes `("SSN", m.group(), m.start(), m.end())`.  On the
counterexample input `"<SSN_1> 123-45-6789"` the other six patterns find
nothing: EMAIL needs `@`; PHONE needs digit groups of sizes 2-4/3-4/3-4
separated by single optional separators, which 3-2-4 digit runs cannot
satisfy; CREDIT_CARD needs four 4-digit groups; IP_ADDRESS needs dots;
IBAN needs two uppercase letters followed by two digits; DATE_OF_BIRTH
needs a 01-12 month directly before `/` or `-`. -/
def detectSSN (s : Str) : List Finding :=
  (ssnFind s).map (fun p => ⟨"SSN".toList, (s.drop p.1).take (p.2 - p.1), p.1, p.2⟩)

/-! ## Sorting and overlap-resolution lemmas -/

theorem keyLe_total (f g : Finding) : keyLt g f ∨ keyLe f g := by
  by_cases h : keyLt g f
  · exact Or.inl h
  · exact Or.inr h

theorem keyLt_asymm {f g : Finding} (h : keyLt f g) : ¬ keyLt g f := by
  unfold keyLt at *
  omega

theorem keyLe_trans {a b c : Finding} (h1 : keyLe a b) (h2 : keyLe b c) : keyLe a c := by
  unfold keyLe keyLt at *
  omega

theorem insertFinding_perm (f : Finding) :
    ∀ l : List Finding, List.Perm (insertFinding f l) (f :: l) := by
  intro l
  induction l with
  | nil => exact List.Perm.refl _
  | cons g r ih =>
    show (if keyLt g f then g :: insertFinding f r else f :: g :: r).Perm (f :: g :: r)
    by_cases h : keyLt g f
    · rw [if_pos h]
      exact ((ih.cons g).trans (List.Perm.swap f g r))
    · rw [if_neg h]

theorem sortFindings_perm : ∀ l : List Finding, List.Perm (sortFindings l) l := by
  intro l
  induction l with
  | nil => exact List.Perm.refl _
  | cons f r ih =>
    exact (insertFinding_perm f (sortFindings r)).trans (ih.cons f)

theorem insertFinding_sorted (f : Finding) :
    ∀ l : List Finding, l.Pairwise keyLe → (insertFinding f l).Pairwise keyLe := by
  intro l
  induction l with
  | nil => intro _; exact List.pairwise_singleton _ _
  | cons g r ih =>
    intro hp
    rw [List.pairwise_cons] at hp
    show (if keyLt g f then g :: insertFinding f r else f :: g :: r).Pairwise keyLe
    by_cases h : keyLt g f
    · rw [if_pos h]
      rw [List.pairwise_cons]
      constructor
      · intro x hx
        rcases List.mem_cons.mp ((insertFinding_perm f r).mem_iff.mp hx) with rfl | hxr
        · exact keyLt_asymm h
        · exact hp.1 x hxr
      · exact ih hp.2
    · rw [if_neg h]
      rw [List.pairwise_cons]
      constructor
      · intro x hx
        rcases List.mem_cons.mp hx with rfl | hxr
        · exact h
        · exact keyLe_trans (show keyLe f g from h) (hp.1 x hxr)
      · exact List.pairwise_cons.mpr hp

theorem sortFindings_sorted : ∀ l : List Finding, (sortFindings l).Pairwise keyLe := by
  intro l
  induction l with
  | nil => exact List.Pairwise.nil
  | cons f r ih => exact insertFinding_sorted f (sortFindings r) ih

theorem dedupeAux_sublist :
    ∀ (l : List Finding) (le : Int), (dedupeAux l le).Sublist l := by
  intro l
  induction l with
  | nil => intro le; exact List.Sublist.refl _
  | cons f r ih =>
    intro le
    show (if le ≤ (f.start : Int) then f :: dedupeAux r (f.stop : Int)
          else dedupeAux r le).Sublist (f :: r)
    by_cases h : le ≤ (f.start : Int)
    · rw [if_pos h]
      exact (ih _).cons₂ f
    · rw [if_neg h]
      exact (ih _).cons f

/-- The span-chain property maintained by the greedy overlap filter. -/
def DisjChain : Int → List Finding → Prop
  | _, [] => True
  | le, f :: r => le ≤ (f.start : Int) ∧ DisjChain (f.stop : Int) r

theorem dedupeAux_chain :
    ∀ (l : List Finding) (le : Int), DisjChain le (dedupeAux l le) := by
  intro l
  induction l with
  | nil => intro le; trivial
  | cons f r ih =>
    intro le
    show DisjChain le (if le ≤ (f.start : Int) then f :: dedupeAux r (f.stop : Int)
          else dedupeAux r le)
    by_cases h : le ≤ (f.start : Int)
    · rw [if_pos h]
      exact ⟨h, ih _⟩
    · rw [if_neg h]
      exact ih le

theorem disjChain_head_bound {le : Int} :
    ∀ l : List Finding, DisjChain le l → (∀ f ∈ l, f.start ≤ f.stop) →
      ∀ g ∈ l, le ≤ (g.start : Int) := by
  intro l
  induction l generalizing le with
  | nil => intro _ _ g hg; cases hg
  | cons f r ih =>
    intro hc hwfs g hg
    rcases List.mem_cons.mp hg with rfl | hgr
    · exact hc.1
    · have hfs : f.start ≤ f.stop := hwfs f (List.mem_cons_self _ _)
      have := ih hc.2 (fun x hx => hwfs x (List.mem_cons_of_mem _ hx)) g hgr
      have h1 : le ≤ (f.start : Int) := hc.1
      omega

theorem disjChain_pairwise :
    ∀ (l : List Finding) (le : Int), DisjChain le l → (∀ f ∈ l, f.start ≤ f.stop) →
      l.Pairwise (fun f g => f.stop ≤ g.start) := by
  intro l
  induction l with
  | nil => intro _ _ _; exact List.Pairwise.nil
  | cons f r ih =>
    intro le hc hwfs
    rw [List.pairwise_cons]
    constructor
    · intro g hg
      have := disjChain_head_bound r hc.2
        (fun x hx => hwfs x (List.mem_cons_of_mem _ hx)) g hg
      omega
    · exact ih _ hc.2 (fun x hx => hwfs x (List.mem_cons_of_mem _ hx))

/-! ## The replacement loop produces a well-formed piece text -/

theorem take_append_le : ∀ (a b : Str) (n : Nat), n ≤ a.length →
    (a ++ b).take n = a.take n := by
  intro a
  induction a with
  | nil =>
    intro b n h
    simp only [List.length_nil, Nat.le_zero] at h
    subst h
    rfl
  | cons c a' ih =>
    intro b n h
    cases n with
    | zero => rfl
    | succ m =>
      show c :: (a' ++ b).take m = c :: a'.take m
      rw [ih b m (by simpa using h)]

theorem drop_append_le : ∀ (a b : Str) (n : Nat), n ≤ a.length →
    (a ++ b).drop n = a.drop n ++ b := by
  intro a
  induction a with
  | nil =>
    intro b n h
    simp only [List.length_nil, Nat.le_zero] at h
    subst h
    rfl
  | cons c a' ih =>
    intro b n h
    cases n with
    | zero => rfl
    | succ m =>
      show (a' ++ b).drop m = a'.drop m ++ b
      exact ih b m (by simpa using h)

/-- The string produced by the replacement loop, with the token of each
finding recorded alongside it (registry-free mirror of `applyRepl`). -/
def splice (text : Str) : List (Finding × Str) → Str
  | [] => text
  | (f, t) :: r => (splice text r).take f.start ++ t ++ (splice text r).drop f.stop

/-- Ordered, in-bounds, pairwise-disjoint spans starting at `pos`. -/
def SpliceOK (text : Str) : Nat → List (Finding × Str) → Prop
  | _, [] => True
  | pos, (f, _) :: r =>
    pos ≤ f.start ∧ f.start ≤ f.stop ∧ f.stop ≤ text.length ∧ SpliceOK text f.stop r

/-- Piece decomposition of the masked text: literal text segments between the
(disjoint, ordered) replaced spans, tokens at the spans. -/
def maskedPieces (text : Str) : Nat → List (Finding × Str) → List Piece
  | pos, [] => litify (text.drop pos)
  | pos, (f, t) :: r =>
    litify ((text.drop pos).take (f.start - pos)) ++
      Piece.tok t :: maskedPieces text f.stop r

theorem splice_spec (text : Str) :
    ∀ (ann : List (Finding × Str)) (pos : Nat), SpliceOK text pos ann →
      (splice text ann).take pos = text.take pos ∧
      (splice text ann).drop pos = render (maskedPieces text pos ann) := by
  intro ann
  induction ann with
  | nil =>
    intro pos _
    exact ⟨rfl, (render_litify _).symm⟩
  | cons q r ih =>
    obtain ⟨f, t⟩ := q
    intro pos hok
    obtain ⟨hpos, hse, hel, hrest⟩ := hok
    obtain ⟨htake, hdrop⟩ := ih f.stop hrest
    have hS : splice text ((f, t) :: r)
        = (splice text r).take f.start ++ t ++ (splice text r).drop f.stop := rfl
    have htakestart : (splice text r).take f.start = text.take f.start := by
      have h1 : (splice text r).take f.start
          = ((splice text r).take f.stop).take f.start := by
        rw [List.take_take, Nat.min_eq_left hse]
      rw [h1, htake, List.take_take, Nat.min_eq_left hse]
    have hstartlen : f.start ≤ text.length := le_trans hse hel
    have hlen1 : (text.take f.start).length = f.start := by
      rw [List.length_take]
      omega
    constructor
    · rw [hS, htakestart, List.append_assoc,
        take_append_le (text.take f.start) _ pos (by omega),
        List.take_take, Nat.min_eq_left hpos]
    · rw [hS, htakestart, List.append_assoc,
        drop_append_le (text.take f.start) _ pos (by omega), hdrop]
      show _ = render (litify ((text.drop pos).take (f.start - pos))
          ++ Piece.tok t :: maskedPieces text f.stop r)
      rw [render_append, render_litify, List.drop_take]
      rfl

theorem spliceOK_of_chain (text : Str) :
    ∀ (ann : List (Finding × Str)) (pos : Nat),
      DisjChain (pos : Int) (ann.map Prod.fst) →
      (∀ q ∈ ann, q.1.start ≤ q.1.stop ∧ q.1.stop ≤ text.length) →
      SpliceOK text pos ann := by
  intro ann
  induction ann with
  | nil => intro pos _ _; trivial
  | cons q r ih =>
    obtain ⟨f, t⟩ := q
    intro pos hch hb
    obtain ⟨h1, h2⟩ := hch
    have hfb := hb (f, t) (List.mem_cons_self _ _)
    refine ⟨by exact_mod_cast h1, hfb.1, hfb.2, ?_⟩
    exact ih f.stop (by exact_mod_cast h2) (fun x hx => hb x (List.mem_cons_of_mem _ hx))

theorem maskedPieces_goodU (entries : List (Str × Str)) (text : Str)
    (htext : '<' ∉ text) :
    ∀ (ann : List (Finding × Str)) (pos : Nat),
      (∀ q ∈ ann, wfToken q.2 ∧ (lookupA q.2 entries).isSome = true) →
      GoodU entries (maskedPieces text pos ann) := by
  have hlit : ∀ s : Str, (∀ c ∈ s, c ∈ text) → GoodU entries (litify s) := by
    intro s hs
    exact goodU_litify entries s (fun c hc he => htext (he ▸ hs c hc))
  intro ann
  induction ann with
  | nil =>
    intro pos _
    exact hlit _ (fun c hc => List.drop_subset _ _ hc)
  | cons q r ih =>
    obtain ⟨f, t⟩ := q
    intro pos hq
    have hqf := hq (f, t) (List.mem_cons_self _ _)
    refine goodU_append entries _ _
      (hlit _ (fun c hc => List.drop_subset _ _ (List.take_subset _ _ hc))) ?_
    exact ⟨hqf.1, hqf.2, ih f.stop (fun x hx => hq x (List.mem_cons_of_mem _ hx))⟩

theorem maskedPieces_renderOut (entries : List (Str × Str)) (text : Str) :
    ∀ (ann : List (Finding × Str)) (pos : Nat), SpliceOK text pos ann →
      (∀ q ∈ ann, lookupA q.2 entries
        = some ((text.drop q.1.start).take (q.1.stop - q.1.start))) →
      renderOut entries (maskedPieces text pos ann) = text.drop pos := by
  intro ann
  induction ann with
  | nil =>
    intro pos _ _
    exact renderOut_litify entries _
  | cons q r ih =>
    obtain ⟨f, t⟩ := q
    intro pos hok hq
    obtain ⟨hpos, hse, hel, hrest⟩ := hok
    show renderOut entries (litify ((text.drop pos).take (f.start - pos))
        ++ Piece.tok t :: maskedPieces text f.stop r) = text.drop pos
    rw [renderOut_append, renderOut_litify]
    show _ ++ ((lookupA t entries).getD t ++ renderOut entries (maskedPieces text f.stop r))
        = text.drop pos
    rw [hq (f, t) (List.mem_cons_self _ _),
      ih f.stop hrest (fun x hx => hq x (List.mem_cons_of_mem _ hx))]
    show (text.drop pos).take (f.start - pos)
        ++ ((text.drop f.start).take (f.stop - f.start) ++ text.drop f.stop)
        = text.drop pos
    have hinner : (text.drop f.start).take (f.stop - f.start) ++ text.drop f.stop
        = text.drop f.start := by
      have := List.drop_take_append_drop text f.start (f.stop - f.start)
      rwa [Nat.add_sub_cancel' hse] at this
    rw [hinner]
    have := List.drop_take_append_drop text pos (f.start - pos)
    rwa [Nat.add_sub_cancel' hpos] at this

theorem get_token_wf {Pv : Str → Prop} {R : EntityRegistry}
    (hre : Reaches kindOK Pv R) (k v : Str) (hk : kindOK k) :
    wfToken (get_or_create_token R k v).1 := by
  rcases hlk : lookupA (pyStrip v) R.value_to_token with _ | t
  · rw [get_or_create_token_fresh hlk]
    exact wfToken_mkToken k _ hk
  · rw [get_or_create_token_found hlk]
    obtain ⟨hswap, -, -, -, -⟩ := regInv_of_reaches R hre
    have hmem : (pyStrip v, t) ∈ R.value_to_token := lookupA_mem _ _ _ hlk
    have hmem2 : (t, pyStrip v) ∈ R.token_to_value := by
      rw [hswap]
      exact List.mem_map.mpr ⟨_, hmem, rfl⟩
    exact t2v_wfToken hre (t, pyStrip v) hmem2

theorem t2v_entry_conds {Pv : Str → Prop} {R : EntityRegistry}
    (hre : Reaches kindOK Pv R) :
    ∀ p ∈ R.token_to_value, wfToken p.1 ∧ Pv p.2 := by
  intro p hp
  obtain ⟨hswap, -, -, hPvs, -⟩ := regInv_of_reaches R hre
  refine ⟨t2v_wfToken hre p hp, ?_⟩
  rw [hswap] at hp
  obtain ⟨q, hq, hqe⟩ := List.mem_map.mp hp
  cases hqe
  exact hPvs q hq

theorem applyRepl_cons (f : Finding) (rest : List Finding) (text : Str)
    (R : EntityRegistry) :
    applyRepl (f :: rest) text R
      = ((applyRepl rest text R).1.take f.start
          ++ (get_or_create_token (applyRepl rest text R).2 f.kind f.value).1
          ++ (applyRepl rest text R).1.drop f.stop,
         (get_or_create_token (applyRepl rest text R).2 f.kind f.value).2) := rfl

/-- The replacement loop writes exactly the splice of its findings' tokens
into the text, threads the registry through reachable states, and every
allocated token is well-formed and maps back to the stripped value. -/
theorem applyRepl_spec (Pv : Str → Prop) (text : Str) :
    ∀ (filtered : List Finding) (R₀ : EntityRegistry),
      Reaches kindOK Pv R₀ →
      (∀ f ∈ filtered, kindOK f.kind ∧ Pv (pyStrip f.value)) →
      ∃ ann : List (Finding × Str),
        ann.map Prod.fst = filtered ∧
        (applyRepl filtered text R₀).1 = splice text ann ∧
        Reaches kindOK Pv (applyRepl filtered text R₀).2 ∧
        ∀ q ∈ ann,
          lookupA q.2 (applyRepl filtered text R₀).2.token_to_value
            = some (pyStrip q.1.value) ∧ wfToken q.2 := by
  intro filtered
  induction filtered with
  | nil =>
    intro R₀ hre _
    exact ⟨[], rfl, rfl, hre, fun q hq => absurd hq (List.not_mem_nil q)⟩
  | cons f rest ih =>
    intro R₀ hre hcond
    obtain ⟨ann, hmap, hsplice, hreS, hlook⟩ :=
      ih R₀ hre (fun x hx => hcond x (List.mem_cons_of_mem _ hx))
    have hf := hcond f (List.mem_cons_self _ _)
    refine ⟨(f, (get_or_create_token (applyRepl rest text R₀).2 f.kind f.value).1) :: ann,
      ?_, ?_, ?_, ?_⟩
    · show _ :: ann.map Prod.fst = f :: rest
      rw [hmap]
    · rw [applyRepl_cons]
      show (applyRepl rest text R₀).1.take f.start ++ _ ++ (applyRepl rest text R₀).1.drop f.stop
        = (splice text ann).take f.start ++ _ ++ (splice text ann).drop f.stop
      rw [hsplice]
    · rw [applyRepl_cons]
      exact Reaches.step _ f.kind f.value hreS hf.1 hf.2
    · intro q hq
      rw [applyRepl_cons]
      rcases List.mem_cons.mp hq with rfl | hqann
      · exact ⟨get_or_create_t2v_self hreS f.kind f.value, get_token_wf hreS f.kind f.value hf.1⟩
      · obtain ⟨hl, hw⟩ := hlook q hqann
        exact ⟨t2v_lookup_mono hreS f.kind f.value hl, hw⟩

/-- The contract guaranteed by `_detect_regex`/`_detect_ner`: kinds come from
the fixed enumeration (hence delimiter-free), each value is the exact text
span (`m.group()`), values carry no surrounding whitespace (`strip` fixes
them), and spans are within bounds. -/
def DetectorOK (text : Str) (findings : List Finding) : Prop :=
  ∀ f ∈ findings,
    kindOK f.kind ∧
    f.value = (text.drop f.start).take (f.stop - f.start) ∧
    pyStrip f.value = f.value ∧
    f.start ≤ f.stop ∧ f.stop ≤ text.length

instance instDetectorOKDec (text : Str) (findings : List Finding) :
    Decidable (DetectorOK text findings) :=
  inferInstanceAs (Decidable (∀ f ∈ findings,
    kindOK f.kind ∧
    f.value = (text.drop f.start).take (f.stop - f.start) ∧
    pyStrip f.value = f.value ∧
    f.start ≤ f.stop ∧ f.stop ≤ text.length))

theorem disjChain_start_zero : ∀ l : List Finding, DisjChain (-1) l →
    DisjChain ((0 : Nat) : Int) l := by
  intro l h
  cases l with
  | nil => trivial
  | cons f r => exact ⟨by omega, h.2⟩

/-- Round trip of the masking pass on an angle-bracket-free text: unmasking
the masked text with the populated registry restores the text exactly. -/
theorem mask_roundTrip (detect : Str → List Finding) (text : Str)
    (htext : '<' ∉ text) (hdet : DetectorOK text (detect text)) :
    unmask (mask_text detect text emptyRegistry).2
      (mask_text detect text emptyRegistry).1 = text := by
  by_cases hlen : text.length < 2
  · simp [mask_text, hlen, unmask, emptyRegistry]
  · have hmask : mask_text detect text emptyRegistry
        = applyRepl (dedupe (sortFindings (detect text))) text emptyRegistry := by
      unfold mask_text
      rw [if_neg hlen]
    have hmem : ∀ f ∈ dedupe (sortFindings (detect text)), f ∈ detect text := by
      intro f hf
      exact (sortFindings_perm (detect text)).mem_iff.mp
        ((dedupeAux_sublist (sortFindings (detect text)) (-1)).subset hf)
    have hcond : ∀ f ∈ dedupe (sortFindings (detect text)),
        kindOK f.kind ∧ '<' ∉ pyStrip f.value := by
      intro f hf
      obtain ⟨hk, hval, hstrip, -, -⟩ := hdet f (hmem f hf)
      refine ⟨hk, ?_⟩
      rw [hstrip, hval]
      intro hc
      exact htext (List.drop_subset _ _ (List.take_subset _ _ hc))
    obtain ⟨ann, hmap, hsplice, hreS, hlook⟩ :=
      applyRepl_spec (fun v => '<' ∉ v) text
        (dedupe (sortFindings (detect text))) emptyRegistry Reaches.init hcond
    have hbounds : ∀ q ∈ ann, q.1.start ≤ q.1.stop ∧ q.1.stop ≤ text.length := by
      intro q hq
      have hqF : q.1 ∈ dedupe (sortFindings (detect text)) := by
        rw [← hmap]
        exact List.mem_map_of_mem Prod.fst hq
      obtain ⟨-, -, -, h1, h2⟩ := hdet q.1 (hmem q.1 hqF)
      exact ⟨h1, h2⟩
    have hch : DisjChain ((0 : Nat) : Int) (ann.map Prod.fst) := by
      rw [hmap]
      exact disjChain_start_zero _ (dedupeAux_chain (sortFindings (detect text)) (-1))
    have hok : SpliceOK text 0 ann := spliceOK_of_chain text ann 0 hch hbounds
    have hpieces : splice text ann = render (maskedPieces text 0 ann) := by
      have := (splice_spec text ann 0 hok).2
      rwa [List.drop_zero] at this
    have hentry : ∀ p ∈ (applyRepl (dedupe (sortFindings (detect text))) text
        emptyRegistry).2.token_to_value, wfToken p.1 ∧ '<' ∉ p.2 :=
      t2v_entry_conds hreS
    have hgood : GoodU (applyRepl (dedupe (sortFindings (detect text))) text
        emptyRegistry).2.token_to_value (maskedPieces text 0 ann) := by
      apply maskedPieces_goodU _ text htext
      intro q hq
      obtain ⟨hl, hw⟩ := hlook q hq
      exact ⟨hw, by rw [hl]; rfl⟩
    have hlook' : ∀ q ∈ ann,
        lookupA q.2 (applyRepl (dedupe (sortFindings (detect text))) text
          emptyRegistry).2.token_to_value
          = some ((text.drop q.1.start).take (q.1.stop - q.1.start)) := by
      intro q hq
      have hqF : q.1 ∈ dedupe (sortFindings (detect text)) := by
        rw [← hmap]
        exact List.mem_map_of_mem Prod.fst hq
      obtain ⟨-, hval, hstrip, -, -⟩ := hdet q.1 (hmem q.1 hqF)
      rw [(hlook q hq).1, hstrip, hval]
    rw [hmask, hsplice, hpieces]
    unfold unmask
    rw [unmask_fold _ _ hentry hgood]
    have := maskedPieces_renderOut
      (applyRepl (dedupe (sortFindings (detect text))) text
        emptyRegistry).2.token_to_value text ann 0 hok hlook'
    rw [this, List.drop_zero]

/-! ## Shared concrete registries for witnesses and counterexamples -/

/-- Registry with the single entry `<PERSON_1>` ↦ `Jane`. -/
def regJane : EntityRegistry :=
  (get_or_create_token emptyRegistry "PERSON".toList "Jane".toList).2

/-- Registry with the single entry `<PERSON_1>` ↦ `Jane Doe`. -/
def regJaneDoe : EntityRegistry :=
  (get_or_create_token emptyRegistry "PERSON".toList "Jane Doe".toList).2

/-- Registry with the single entry `<PERSON_1>` ↦ `x`. -/
def regPersonX : EntityRegistry :=
  (get_or_create_token emptyRegistry "PERSON".toList "x".toList).2

/-! ## Claim theorems -/

/-- C1 counterexample: the streaming/non-streaming equivalence fails as
universally stated.  With `<PERSON_1>` ↦ `Jane` registered and the text
`<<PERSON_1>` (a single registered token occurrence preceded by one stray
`<` — no two tokens are adjacent, so the spec's stated adjacency proviso is
satisfied), the streaming machine buffers from the first `<`, fails the
lookup of `<<PERSON_1>` and emits it literally, while the non-streaming
`unmask` replaces the embedded token, producing `<Jane`. -/
theorem C1_counterexample :
    streamTotal regJane ["<<PERSON_1>".toList] = "<<PERSON_1>".toList ∧
    unmask regJane "<<PERSON_1>".toList = "<Jane".toList ∧
    streamTotal regJane ["<<PERSON_1>".toList]
      ≠ unmask regJane "<<PERSON_1>".toList := by
  refine ⟨by decide, by decide, by decide⟩

/-- C1 (amended): for every registry whose token map holds well-formed
`<KIND_N>`-shaped tokens of length at most 31 mapping to `<`-free values,
and every text decomposing into registered tokens and non-`<` literal
characters, feeding ANY ordered partition of the text through `feed`
followed by one `flush` is byte-for-byte equal to the non-streaming
`unmask` of the whole text.  (The original claim's adjacency proviso is
insufficient: a stray `<` immediately before a token already breaks it, as
the counterexample shows; on texts where every `<` starts a registered
token the equivalence holds for arbitrary partitions.) -/
theorem C1_amended (reg : EntityRegistry) (ps : List Piece) (frags : List Str)
    (hwf : wfReg reg.token_to_value)
    (hg : GoodU reg.token_to_value ps)
    (hjoin : joinAll frags = render ps) :
    streamTotal reg frags = unmask reg (joinAll frags) := by
  rw [hjoin]
  rw [streamTotal_renderOut reg hwf ps hg frags hjoin, unmask_renderOut reg hwf ps hg]

/-- C1 witness: the amended equivalence at a concrete instance — registry
`<PERSON_1>` ↦ `Jane Doe`, text `Hi <PERSON_1>!` split mid-token into the
fragments `"Hi <PER"` and `"SON_1>!"`. -/
theorem C1_witness :
    wfReg regJaneDoe.token_to_value ∧
    GoodU regJaneDoe.token_to_value
      [Piece.lit 'H', Piece.lit 'i', Piece.lit ' ',
       Piece.tok "<PERSON_1>".toList, Piece.lit '!'] ∧
    joinAll ["Hi <PER".toList, "SON_1>!".toList]
      = render [Piece.lit 'H', Piece.lit 'i', Piece.lit ' ',
                Piece.tok "<PERSON_1>".toList, Piece.lit '!'] ∧
    streamTotal regJaneDoe ["Hi <PER".toList, "SON_1>!".toList]
      = unmask regJaneDoe (joinAll ["Hi <PER".toList, "SON_1>!".toList]) :=
  ⟨by decide, by decide, by decide,
   C1_amended regJaneDoe
     [Piece.lit 'H', Piece.lit 'i', Piece.lit ' ',
      Piece.tok "<PERSON_1>".toList, Piece.lit '!']
     ["Hi <PER".toList, "SON_1>!".toList] (by decide) (by decide) (by decide)⟩

/-- C2 counterexample: the round trip fails as universally stated.  Masking
`<SSN_1> 123-45-6789` with a fresh registry (regex-only detection; only the
SSN pattern matches this input) allocates the token `<SSN_1>` for the SSN,
producing `<SSN_1> <SSN_1>`; `unmask` then replaces BOTH occurrences, so
the text's pre-existing literal `<SSN_1>` is also rewritten and the round
trip returns `123-45-6789 123-45-6789` instead of the original text. -/
theorem C2_counterexample :
    (mask_text detectSSN "<SSN_1> 123-45-6789".toList emptyRegistry).1
      = "<SSN_1> <SSN_1>".toList ∧
    unmask (mask_text detectSSN "<SSN_1> 123-45-6789".toList emptyRegistry).2
        (mask_text detectSSN "<SSN_1> 123-45-6789".toList emptyRegistry).1
      = "123-45-6789 123-45-6789".toList ∧
    unmask (mask_text detectSSN "<SSN_1> 123-45-6789".toList emptyRegistry).2
        (mask_text detectSSN "<SSN_1> 123-45-6789".toList emptyRegistry).1
      ≠ "<SSN_1> 123-45-6789".toList := by
  refine ⟨by decide, by decide, by decide⟩

/-- C2 (amended): for every text containing no `<` character (so no
registry token shape can pre-exist in the text) and a fresh registry,
`unmask(mask(T, R), R) = T`, for any detector output satisfying the
detector contract (exact spans, strip-invariant values, enum kinds,
in-bounds offsets). -/
theorem C2_amended (detect : Str → List Finding) (text : Str)
    (htext : '<' ∉ text) (hdet : DetectorOK text (detect text)) :
    unmask (mask_text detect text emptyRegistry).2
      (mask_text detect text emptyRegistry).1 = text :=
  mask_roundTrip detect text htext hdet

/-- C2 witness: the amended round trip at a concrete instance — the text
`mail bob@x.io now` with the email finding at offsets 5..13. -/
theorem C2_witness :
    '<' ∉ "mail bob@x.io now".toList ∧
    DetectorOK "mail bob@x.io now".toList
      [⟨"EMAIL".toList, "bob@x.io".toList, 5, 13⟩] ∧
    unmask (mask_text (fun _ => [⟨"EMAIL".toList, "bob@x.io".toList, 5, 13⟩])
        "mail bob@x.io now".toList emptyRegistry).2
      (mask_text (fun _ => [⟨"EMAIL".toList, "bob@x.io".toList, 5, 13⟩])
        "mail bob@x.io now".toList emptyRegistry).1 = "mail bob@x.io now".toList :=
  ⟨by decide, by decide,
   C2_amended (fun _ => [⟨"EMAIL".toList, "bob@x.io".toList, 5, 13⟩])
     "mail bob@x.io now".toList (by decide) (by decide)⟩

/-- C3 counterexample: per-kind sequential numbering fails when a value is
reused across kinds, because the lookup ignores the requested kind.  After
`get_or_create_token("PERSON", "x")`, the two distinct values `x`, `y`
requested under kind `ORG` receive `<PERSON_1>` and `<ORG_1>` — not
`<ORG_1>` and `<ORG_2>` as the claim's numbering requires. -/
theorem C3_counterexample :
    (get_or_create_token regPersonX "ORG".toList "x".toList).1
      = "<PERSON_1>".toList ∧
    (get_or_create_token
        (get_or_create_token regPersonX "ORG".toList "x".toList).2
        "ORG".toList "y".toList).1 = "<ORG_1>".toList ∧
    ¬ ((get_or_create_token regPersonX "ORG".toList "x".toList).1
          = "<ORG_1>".toList ∧
       (get_or_create_token
          (get_or_create_token regPersonX "ORG".toList "x".toList).2
          "ORG".toList "y".toList).1 = "<ORG_2>".toList) := by
  refine ⟨by decide, by decide, by decide⟩

/-- C3 (amended): determinism and sequential numbering hold for values NEW
to the registry.  Repeating a value (after stripping) returns the very same
token and leaves the registry untouched; two distinct fresh values of the
same kind receive the consecutive tokens `<KIND_(c+1)>` and `<KIND_(c+2)>`
(1-based from a fresh registry, where the counter `c` is 0), which are
distinct. -/
theorem C3_amended (R : EntityRegistry) (k v1 v2 : Str)
    (h1 : lookupA (pyStrip v1) R.value_to_token = none)
    (h2 : lookupA (pyStrip v2)
      (get_or_create_token R k v1).2.value_to_token = none) :
    (∀ k' v', pyStrip v' = pyStrip v1 →
       get_or_create_token (get_or_create_token R k v1).2 k' v'
         = ((get_or_create_token R k v1).1, (get_or_create_token R k v1).2)) ∧
    (get_or_create_token R k v1).1 = mkToken k (counterOf R k + 1) ∧
    (get_or_create_token (get_or_create_token R k v1).2 k v2).1
      = mkToken k (counterOf R k + 2) ∧
    (get_or_create_token R k v1).1
      ≠ (get_or_create_token (get_or_create_token R k v1).2 k v2).1 := by
  have htok1 : (get_or_create_token R k v1).1 = mkToken k (counterOf R k + 1) := by
    rw [get_or_create_token_fresh h1]
  have hcnt : counterOf (get_or_create_token R k v1).2 k = counterOf R k + 1 := by
    rw [counterOf_fresh h1 k, if_pos rfl]
  have htok2 : (get_or_create_token (get_or_create_token R k v1).2 k v2).1
      = mkToken k (counterOf R k + 2) := by
    rw [get_or_create_token_fresh h2, hcnt]
  refine ⟨?_, htok1, htok2, ?_⟩
  · intro k' v' hv
    have hself := get_or_create_lookup_self R k v1
    rw [← hv] at hself
    exact get_or_create_token_found hself
  · rw [htok1, htok2]
    intro heq
    have := (mkToken_inj heq).2
    omega

/-- C3 witness: the amended statement at a fresh registry with kind `ORG`
and values `x`, `y`: the tokens are `<ORG_1>` and `<ORG_2>`. -/
theorem C3_witness :
    lookupA (pyStrip "x".toList) emptyRegistry.value_to_token = none ∧
    lookupA (pyStrip "y".toList)
      (get_or_create_token emptyRegistry "ORG".toList "x".toList).2.value_to_token
      = none ∧
    ((∀ k' v', pyStrip v' = pyStrip "x".toList →
       get_or_create_token
           (get_or_create_token emptyRegistry "ORG".toList "x".toList).2 k' v'
         = ((get_or_create_token emptyRegistry "ORG".toList "x".toList).1,
            (get_or_create_token emptyRegistry "ORG".toList "x".toList).2)) ∧
     (get_or_create_token emptyRegistry "ORG".toList "x".toList).1
       = mkToken "ORG".toList (counterOf emptyRegistry "ORG".toList + 1) ∧
     (get_or_create_token
         (get_or_create_token emptyRegistry "ORG".toList "x".toList).2
         "ORG".toList "y".toList).1
       = mkToken "ORG".toList (counterOf emptyRegistry "ORG".toList + 2) ∧
     (get_or_create_token emptyRegistry "ORG".toList "x".toList).1
       ≠ (get_or_create_token
           (get_or_create_token emptyRegistry "ORG".toList "x".toList).2
           "ORG".toList "y".toList).1) :=
  ⟨by decide, by decide,
   C3_amended emptyRegistry "ORG".toList "x".toList "y".toList (by decide) (by decide)⟩

theorem pairwise_mem_or {r : Finding → Finding → Prop} :
    ∀ l : List Finding, l.Pairwise r → ∀ f g, f ∈ l → g ∈ l → f ≠ g → r f g ∨ r g f := by
  intro l
  induction l with
  | nil => intro _ f g hf; cases hf
  | cons a t ih =>
    intro hp f g hf hg hne
    rw [List.pairwise_cons] at hp
    rcases List.mem_cons.mp hf with rfl | hft
    · rcases List.mem_cons.mp hg with rfl | hgt
      · exact absurd rfl hne
      · exact Or.inl (hp.1 g hgt)
    · rcases List.mem_cons.mp hg with rfl | hgt
      · exact Or.inr (hp.1 f hft)
      · exact ih hp.2 f g hft hgt hne

/-- C4: the sorting pass orders findings by start ascending with longer
spans first on ties (`keyLe` is exactly that key order) while permuting the
findings; the greedy filter keeps a subsequence whose spans are ordered and
pairwise disjoint, so no two kept findings overlap and an overlapping
shorter candidate is never kept alongside the longer one it overlaps. -/
theorem C4_sort_filter (findings : List Finding)
    (hspans : ∀ f ∈ findings, f.start ≤ f.stop) :
    (sortFindings findings).Pairwise keyLe ∧
    List.Perm (sortFindings findings) findings ∧
    (dedupe (sortFindings findings)).Sublist (sortFindings findings) ∧
    (dedupe (sortFindings findings)).Pairwise (fun f g => f.stop ≤ g.start) ∧
    (∀ f g, f ∈ dedupe (sortFindings findings) → g ∈ dedupe (sortFindings findings) →
      f ≠ g → ¬ (f.start < g.stop ∧ g.start < f.stop)) := by
  have hmem : ∀ f ∈ dedupe (sortFindings findings), f ∈ findings := by
    intro f hf
    exact (sortFindings_perm findings).mem_iff.mp
      ((dedupeAux_sublist (sortFindings findings) (-1)).subset hf)
  have hpw : (dedupe (sortFindings findings)).Pairwise (fun f g => f.stop ≤ g.start) :=
    disjChain_pairwise _ (-1) (dedupeAux_chain (sortFindings findings) (-1))
      (fun f hf => hspans f (hmem f hf))
  refine ⟨sortFindings_sorted findings, sortFindings_perm findings,
    dedupeAux_sublist (sortFindings findings) (-1), hpw, ?_⟩
  intro f g hf hg hne hover
  rcases pairwise_mem_or _ hpw f g hf hg hne with h | h
  · omega
  · omega

/-- C4 witness: two overlapping PERSON candidates (full-name span 0..8,
single-word span 0..4) and a disjoint email span; the filter keeps the
longer overlapping span only. -/
theorem C4_witness :
    (∀ f ∈ [(⟨"PERSON".toList, "Jane Doe".toList, 0, 8⟩ : Finding),
            ⟨"PERSON".toList, "Jane".toList, 0, 4⟩,
            ⟨"EMAIL".toList, "j@d.io".toList, 9, 15⟩], f.start ≤ f.stop) ∧
    ((sortFindings [(⟨"PERSON".toList, "Jane Doe".toList, 0, 8⟩ : Finding),
            ⟨"PERSON".toList, "Jane".toList, 0, 4⟩,
            ⟨"EMAIL".toList, "j@d.io".toList, 9, 15⟩]).Pairwise keyLe ∧
     List.Perm (sortFindings [(⟨"PERSON".toList, "Jane Doe".toList, 0, 8⟩ : Finding),
            ⟨"PERSON".toList, "Jane".toList, 0, 4⟩,
            ⟨"EMAIL".toList, "j@d.io".toList, 9, 15⟩])
       [(⟨"PERSON".toList, "Jane Doe".toList, 0, 8⟩ : Finding),
            ⟨"PERSON".toList, "Jane".toList, 0, 4⟩,
            ⟨"EMAIL".toList, "j@d.io".toList, 9, 15⟩] ∧
     (dedupe (sortFindings [(⟨"PERSON".toList, "Jane Doe".toList, 0, 8⟩ : Finding),
            ⟨"PERSON".toList, "Jane".toList, 0, 4⟩,
            ⟨"EMAIL".toList, "j@d.io".toList, 9, 15⟩])).Sublist
       (sortFindings [(⟨"PERSON".toList, "Jane Doe".toList, 0, 8⟩ : Finding),
            ⟨"PERSON".toList, "Jane".toList, 0, 4⟩,
            ⟨"EMAIL".toList, "j@d.io".toList, 9, 15⟩]) ∧
     (dedupe (sortFindings [(⟨"PERSON".toList, "Jane Doe".toList, 0, 8⟩ : Finding),
            ⟨"PERSON".toList, "Jane".toList, 0, 4⟩,
            ⟨"EMAIL".toList, "j@d.io".toList, 9, 15⟩])).Pairwise
       (fun f g => f.stop ≤ g.start) ∧
     (∀ f g, f ∈ dedupe (sortFindings [(⟨"PERSON".toList, "Jane Doe".toList, 0, 8⟩ : Finding),
            ⟨"PERSON".toList, "Jane".toList, 0, 4⟩,
            ⟨"EMAIL".toList, "j@d.io".toList, 9, 15⟩]) →
        g ∈ dedupe (sortFindings [(⟨"PERSON".toList, "Jane Doe".toList, 0, 8⟩ : Finding),
            ⟨"PERSON".toList, "Jane".toList, 0, 4⟩,
            ⟨"EMAIL".toList, "j@d.io".toList, 9, 15⟩]) →
        f ≠ g → ¬ (f.start < g.stop ∧ g.start < f.stop))) ∧
    dedupe (sortFindings [(⟨"PERSON".toList, "Jane Doe".toList, 0, 8⟩ : Finding),
            ⟨"PERSON".toList, "Jane".toList, 0, 4⟩,
            ⟨"EMAIL".toList, "j@d.io".toList, 9, 15⟩])
      = [(⟨"PERSON".toList, "Jane Doe".toList, 0, 8⟩ : Finding),
         ⟨"EMAIL".toList, "j@d.io".toList, 9, 15⟩] :=
  ⟨by decide,
   C4_sort_filter [⟨"PERSON".toList, "Jane Doe".toList, 0, 8⟩,
            ⟨"PERSON".toList, "Jane".toList, 0, 4⟩,
            ⟨"EMAIL".toList, "j@d.io".toList, 9, 15⟩] (by decide),
   by decide⟩

/-- C5: on texts shorter than 2 characters (the empty string included),
`mask_text` returns the text unchanged together with the very same
registry — no mappings added, no counters changed. -/
theorem C5_short_text (detect : Str → List Finding) (text : Str)
    (R : EntityRegistry) (h : text.length < 2) :
    mask_text detect text R = (text, R) := by
  unfold mask_text
  rw [if_pos h]

/-- C5 witness: the one-character text `a` against a nonempty registry. -/
theorem C5_witness :
    ("a".toList : Str).length < 2 ∧
    mask_text detectSSN "a".toList regJane = ("a".toList, regJane) :=
  ⟨by decide, C5_short_text detectSSN "a".toList regJane (by decide)⟩

/-- C6: the pending buffer is bounded.  In BUFFERING, a non-`>` character
that pushes the buffer beyond `MAX_TOKEN_LEN` (30) makes the machine emit
the buffered text literally, clear the buffer and return to NORMAL; after
any sequence of `feed` calls from a fresh machine the buffer never holds
more than 30 characters; and feeding `<` followed by 40 non-`>` characters
emits the whole input (the buffered prefix is flushed when the bound is
exceeded) leaving the machine back in its initial state. -/
theorem C6_buffer_bound :
    (∀ (reg : EntityRegistry) (b : StreamUnmaskBuffer) (c : Char),
       b.state = BufferState.buffering → c ≠ '>' →
       MAX_TOKEN_LEN < b.buffer.length + 1 →
       feedChar reg b c = (⟨BufferState.normal, []⟩, b.buffer ++ [c])) ∧
    (∀ (reg : EntityRegistry) (chunks : List Str),
       (feedMany reg initBuffer chunks).1.buffer.length ≤ MAX_TOKEN_LEN) ∧
    feed emptyRegistry initBuffer ('<' :: List.replicate 40 'a')
      = (initBuffer, '<' :: List.replicate 40 'a') := by
  refine ⟨feedChar_overflow, ?_, by decide⟩
  intro reg chunks
  rw [feedMany_join]
  exact feed_buffer_le reg (joinAll chunks) initBuffer (by decide)

/-- C6 witness: the overflow step at a full 30-character buffer, and the
buffer bound after one concrete feed. -/
theorem C6_witness :
    (StreamUnmaskBuffer.mk BufferState.buffering
        (List.replicate 30 'a')).state = BufferState.buffering ∧
    ('a' : Char) ≠ '>' ∧
    MAX_TOKEN_LEN <
      (StreamUnmaskBuffer.mk BufferState.buffering
        (List.replicate 30 'a')).buffer.length + 1 ∧
    feedChar emptyRegistry
        (StreamUnmaskBuffer.mk BufferState.buffering (List.replicate 30 'a')) 'a'
      = (⟨BufferState.normal, []⟩, List.replicate 30 'a' ++ ['a']) ∧
    (feedMany emptyRegistry initBuffer ["<abc".toList]).1.buffer.length
      ≤ MAX_TOKEN_LEN :=
  ⟨rfl, by decide, by decide,
   C6_buffer_bound.1 emptyRegistry
     (StreamUnmaskBuffer.mk BufferState.buffering (List.replicate 30 'a')) 'a'
     rfl (by decide) (by decide),
   C6_buffer_bound.2.1 emptyRegistry ["<abc".toList]⟩

/-- C7: `feed` returns only text that is safe to release — its output is a
prefix of the output of any extended input, so pending characters are never
returned early; concretely, with `<PERSON_1>` ↦ `Jane Doe` registered,
feeding `"<PER"` emits nothing and the following `"SON_1>"` emits exactly
`Jane Doe`. -/
theorem C7_safe_emission :
    (∀ (reg : EntityRegistry) (b : StreamUnmaskBuffer) (x y : Str),
       PrefixOf (feed reg b x).2 (feed reg b (x ++ y)).2) ∧
    (feed regJaneDoe initBuffer "<PER".toList).2 = [] ∧
    (feed regJaneDoe (feed regJaneDoe initBuffer "<PER".toList).1
      "SON_1>".toList).2 = "Jane Doe".toList := by
  refine ⟨?_, by decide, by decide⟩
  intro reg b x y
  rw [feed_append]
  exact ⟨(feed reg (feed reg b x).1 y).2, rfl⟩

/-- C8: a completed angle-bracketed sequence whose full pending buffer
(with both delimiters) is not in the registry's token map is emitted
literally, character for character, and the machine returns to NORMAL with
an empty buffer; the step is a total function, so no input is dropped and
no error is raised. -/
theorem C8_unknown_literal (reg : EntityRegistry) (b : StreamUnmaskBuffer)
    (hs : b.state = BufferState.buffering)
    (hl : lookupA (b.buffer ++ ['>']) reg.token_to_value = none) :
    feedChar reg b '>' = (⟨BufferState.normal, []⟩, b.buffer ++ ['>']) :=
  feedChar_unknown reg b hs hl

/-- C8 witness: feeding `>` after `<X` against a registry that does not
know `<X>` emits `<X>` literally. -/
theorem C8_witness :
    (StreamUnmaskBuffer.mk BufferState.buffering "<X".toList).state
      = BufferState.buffering ∧
    lookupA ("<X".toList ++ ['>']) regJane.token_to_value = none ∧
    feedChar regJane (StreamUnmaskBuffer.mk BufferState.buffering "<X".toList) '>'
      = (⟨BufferState.normal, []⟩, "<X".toList ++ ['>']) :=
  ⟨rfl, by decide,
   C8_unknown_literal regJane
     (StreamUnmaskBuffer.mk BufferState.buffering "<X".toList) rfl (by decide)⟩

/-- C9: after any sequence of `get_or_create_token` calls on a registry
created empty, the two maps are mutually inverse bijections: keys are
duplicate-free on both sides, and a value maps to a token exactly when that
token maps back to that value. -/
theorem C9_bijection (Pk Pv : Str → Prop) (R : EntityRegistry)
    (hre : Reaches Pk Pv R) :
    (R.value_to_token.map Prod.fst).Nodup ∧
    (R.token_to_value.map Prod.fst).Nodup ∧
    (∀ v t, lookupA v R.value_to_token = some t
      ↔ lookupA t R.token_to_value = some v) := by
  obtain ⟨hswap, hnd1, hnd2, -, -⟩ := regInv_of_reaches R hre
  refine ⟨hnd1, hnd2, ?_⟩
  intro v t
  constructor
  · intro h
    have hmem : (v, t) ∈ R.value_to_token := lookupA_mem _ _ _ h
    have hmem2 : (t, v) ∈ R.token_to_value := by
      rw [hswap]
      exact List.mem_map.mpr ⟨(v, t), hmem, rfl⟩
    exact mem_lookupA _ _ _ hnd2 hmem2
  · intro h
    have hmem : (t, v) ∈ R.token_to_value := lookupA_mem _ _ _ h
    rw [hswap] at hmem
    obtain ⟨q, hq, hqe⟩ := List.mem_map.mp hmem
    obtain ⟨a, b⟩ := q
    rw [Prod.mk.injEq] at hqe
    obtain ⟨hb, ha⟩ := hqe
    subst hb
    subst ha
    exact mem_lookupA _ _ _ hnd1 hq

/-- C9 witness: the bijection at the registry reached by one PERSON
insertion. -/
theorem C9_witness :
    (regPersonX.value_to_token.map Prod.fst).Nodup ∧
    (regPersonX.token_to_value.map Prod.fst).Nodup ∧
    (∀ v t, lookupA v regPersonX.value_to_token = some t
      ↔ lookupA t regPersonX.token_to_value = some v) :=
  C9_bijection (fun _ => True) (fun _ => True) regPersonX
    (Reaches.step emptyRegistry "PERSON".toList "x".toList
      Reaches.init trivial trivial)

/-- C10: registry lookup is keyed by the stripped value alone and ignores
the requested kind.  A value's mapping persists across any later call, and
after a fresh allocation under kind `k1`, requesting the same (stripped)
value under any kind `k2` returns the `k1`-shaped token
`<k1_(c+1)>` and leaves the registry — including `k2`'s counter and both
maps — completely unchanged. -/
theorem C10_cross_kind :
    (∀ (R : EntityRegistry) (key t k' v'' : Str),
       lookupA key R.value_to_token = some t →
       lookupA key (get_or_create_token R k' v'').2.value_to_token = some t) ∧
    (∀ (R : EntityRegistry) (k1 k2 v v' : Str),
       lookupA (pyStrip v) R.value_to_token = none →
       pyStrip v' = pyStrip v →
       get_or_create_token (get_or_create_token R k1 v).2 k2 v'
         = (mkToken k1 (counterOf R k1 + 1), (get_or_create_token R k1 v).2)) := by
  constructor
  · intro R key t k' v'' h
    exact v2t_lookup_mono k' v'' h
  · intro R k1 k2 v v' h1 hv
    have hself := get_or_create_lookup_self R k1 v
    have htok : (get_or_create_token R k1 v).1 = mkToken k1 (counterOf R k1 + 1) := by
      rw [get_or_create_token_fresh h1]
    rw [← hv] at hself
    rw [get_or_create_token_found hself, htok]

/-- C10 witness: after `PERSON`/`x`, requesting `x` under `ORG` returns
`<PERSON_1>` and changes nothing. -/
theorem C10_witness :
    lookupA (pyStrip "x".toList) emptyRegistry.value_to_token = none ∧
    get_or_create_token
        (get_or_create_token emptyRegistry "PERSON".toList "x".toList).2
        "ORG".toList "x".toList
      = (mkToken "PERSON".toList (counterOf emptyRegistry "PERSON".toList + 1),
         (get_or_create_token emptyRegistry "PERSON".toList "x".toList).2) :=
  ⟨by decide,
   C10_cross_kind.2 emptyRegistry "PERSON".toList "ORG".toList "x".toList "x".toList
     (by decide) rfl⟩

end Ollqd

